import Mathlib

/-!
Verification development for an Obsidian-vault note index and
structural-edit engine (Python sources: `vault.py`, `validation.py`,
`operations.py`).  The Python code is shallowly embedded: file contents and
note bodies are lists of characters (`Str`), the regex-driven scanners are
recursive functions that reproduce the Python regex semantics, and the
stateful operations are explicit state-passing functions over a vault
state (a list of files plus a rebuildable index).
-/

set_option linter.unusedVariables false

namespace Obsidian

/-- Text is modelled as a list of unicode scalar characters
(Python `str` semantics). -/
abbrev Str := List Char

/-- Whitespace per Python's `str` regex class `\s` / `str.strip()`
(ASCII whitespace plus the unicode whitespace code points). -/
def isWS (c : Char) : Bool :=
  c == ' ' || c == '\t' || c == '\n' || c == '\r' ||
  c.toNat == 0x0B || c.toNat == 0x0C ||
  (0x1C ≤ c.toNat && c.toNat ≤ 0x1F) ||
  c.toNat == 0x85 || c.toNat == 0xA0 || c.toNat == 0x1680 ||
  (0x2000 ≤ c.toNat && c.toNat ≤ 0x200A) ||
  c.toNat == 0x2028 || c.toNat == 0x2029 ||
  c.toNat == 0x202F || c.toNat == 0x205F || c.toNat == 0x3000

/-- Cyrillic code point, per `_CYRILLIC_RE = [Ѐ-ӿ]`. -/
def isCyr (c : Char) : Bool :=
  0x400 ≤ c.toNat && c.toNat ≤ 0x4FF

/-- `_CYRILLIC_RE.search`: some character of the string is Cyrillic. -/
def hasCyr (s : Str) : Bool := s.any isCyr

/-- Length of the maximal run of characters satisfying `p` at the head. -/
def leadingRun (p : Char → Bool) : Str → Nat
  | [] => 0
  | c :: rest => if p c then leadingRun p rest + 1 else 0

/-- Python `str.strip()` (with `isWS` as the whitespace class). -/
def stripWS (s : Str) : Str :=
  ((s.dropWhile isWS).reverse.dropWhile isWS).reverse

/-- Python `content.split("\n")`. -/
def splitNl : Str → List Str
  | [] => [[]]
  | c :: rest =>
    let r := splitNl rest
    if c = '\n' then [] :: r
    else
      match r with
      | l :: ls => (c :: l) :: ls
      | [] => [[c]]

/-- Python `"\n".join(lines)`. -/
def joinNl : List Str → Str
  | [] => []
  | [l] => l
  | l :: rest => l ++ '\n' :: joinNl rest

/-- Python `list.insert(i, x)` (clamping at the end, as Python does). -/
def insertAt (i : Nat) (x : α) (l : List α) : List α :=
  l.take i ++ x :: l.drop i

/-- Occurrence count of an element in a list. -/
def countOcc [DecidableEq α] (x : α) : List α → Nat
  | [] => 0
  | y :: l => (if y = x then 1 else 0) + countOcc x l

/-- Python substring test `needle in hay`. -/
def strContains (needle : Str) : Str → Bool
  | [] => needle.isPrefixOf []
  | c :: rest => needle.isPrefixOf (c :: rest) || strContains needle rest

/-- First index at which `pat` occurs as a contiguous substring. -/
def findSubIdx (pat : Str) : Str → Option Nat
  | [] => if pat.isPrefixOf ([] : Str) then some 0 else none
  | c :: rest =>
    if pat.isPrefixOf (c :: rest) then some 0
    else
      match findSubIdx pat rest with
      | some i => some (i + 1)
      | none => none

/-- The backtick character (U+0060). -/
def btick : Char := Char.ofNat 0x60

/-- `_FENCE_RE = ^(`(3,)`)`: length of the leading backtick run. -/
def fenceLen (line : Str) : Nat := leadingRun (· == btick) line

/-- A line opens/closes a fence when its leading backtick run has length
at least 3. -/
def isFenceLine (line : Str) : Bool := decide (3 ≤ fenceLen line)

/-- State of `Validator._parse_code_blocks`'s scan. -/
structure FenceSt where
  closed : List (Nat × Nat)
  stack : List (Nat × Nat)
  inCode : Bool
  cur : Nat
deriving DecidableEq

/-- One line of `Validator._parse_code_blocks` (line numbers 1-indexed). -/
def fenceStep (n : Nat) (line : Str) (st : FenceSt) : FenceSt :=
  let b := fenceLen line
  if 3 ≤ b then
    if st.inCode = false then
      { st with stack := st.stack ++ [(n, b)], inCode := true, cur := b }
    else if st.cur ≤ b then
      match st.stack.getLast? with
      | some p =>
        { closed := st.closed ++ [(p.1, n)], stack := st.stack.dropLast,
          inCode := false, cur := 0 }
      | none => { st with inCode := false, cur := 0 }
    else st
  else st

def fenceScanAux : Nat → List Str → FenceSt → FenceSt
  | _, [], st => st
  | n, l :: ls, st => fenceScanAux (n + 1) ls (fenceStep n l st)

/-- `Validator._parse_code_blocks`: closed `(start, end)` ranges
(1-indexed), and opening line numbers of unclosed fences. -/
def parseCodeBlocks (lines : List Str) : List (Nat × Nat) × List Nat :=
  let st := fenceScanAux 1 lines ⟨[], [], false, 0⟩
  (st.closed, st.stack.map Prod.fst)

/-- `Validator._is_inside_code_block`: strictly between the delimiters of
some closed range. -/
def insideClosed (n : Nat) (ranges : List (Nat × Nat)) : Bool :=
  ranges.any (fun r => r.1 < n && n < r.2)

/-- `_HEADING_RE = ^(#+)\s+(.+)$` applied to one line: returns the level
(length of the `#` run) and group 2 (the text after the whitespace run,
where the greedy `\s+` backtracks to leave group 2 nonempty). -/
def headingMatch (line : Str) : Option (Nat × Str) :=
  let k := leadingRun (· == '#') line
  let rest := line.drop k
  if k = 0 then none
  else
    let w := leadingRun isWS rest
    if w = 0 || rest.length < 2 then none
    else some (k, rest.drop (min w (rest.length - 1)))

/-- The line is a heading whose text contains a Cyrillic character. -/
def headingCyrLine (line : Str) : Bool :=
  match headingMatch line with
  | some p => hasCyr p.2
  | none => false

/-- Indexed `List.all`, mirroring `for i, line in enumerate(lines)`. -/
def allIdx (p : Nat → Str → Bool) : Nat → List Str → Bool
  | _, [] => true
  | i, l :: ls => p i l && allIdx p (i + 1) ls

/-- Errors raised by the vault / validator / operations. -/
inductive Err
  | noteNotFound
  | noteAlreadyExists
  | sectionNotFound
  | textNotFound
  | invalidName
  | invalidHeading
  | brokenLink
  | invalidArgument
  | ioError
deriving DecidableEq

/-- `Validator.validate_headings` succeeds iff every heading line outside a
closed fence range has no Cyrillic in its text (the code skips only lines
inside closed ranges). -/
def validateHeadingsOk (content : Str) : Bool :=
  let lines := splitNl content
  let ranges := (parseCodeBlocks lines).1
  allIdx (fun i l => insideClosed (i + 1) ranges || !headingCyrLine l) 0 lines

def validateHeadingsErr (content : Str) : Option Err :=
  if validateHeadingsOk content then none else some .invalidHeading

/-- The 46 characters of the `TASKS_EMOJIS` source string (as the Python
reader decodes the file), deduplicated. -/
def taskEmojiChar (c : Char) : Bool :=
  c.toNat ∈ [0xe2, 0x17e, 0x2022, 0xb3, 0xf0, 0x178, 0x203a, 0xab,
    0x201c, 0x2026, 0x153, 0x152, 0xac, 0x201d, 0xbd, 0xbc, 0xba, 0x2020]

/-- Character class of `_ALLOWED_NAME_RE`. -/
def allowedNameChar (c : Char) : Bool :=
  ('a' ≤ c && c ≤ 'z') || ('A' ≤ c && c ≤ 'Z') || ('0' ≤ c && c ≤ '9') ||
  c == ' ' || c == '_' || c == '@' || c == '-' || taskEmojiChar c

/-- `_ALLOWED_NAME_RE.match(name)`: `^[...]+$` where Python's `$` also
matches just before one trailing newline. -/
def allowedName (name : Str) : Bool :=
  let core := if name.getLast? = some '\n' then name.dropLast else name
  core ≠ [] && core.all allowedNameChar

/-- `Validator.validate_name`. -/
def validateNameErr (name : Str) : Option Err :=
  if hasCyr name then some .invalidName
  else if allowedName name then none
  else some .invalidName

/-- `^\|.*\|$` (a table line). -/
def tableLineB (l : Str) : Bool :=
  match l with
  | '|' :: rest => rest ≠ [] && rest.getLast? == some '|'
  | _ => false

def tableSepChar (c : Char) : Bool := c == '-' || c == ':' || c == '|' || c == ' '

/-- `^\|[-:| ]+\|$` (a table separator line). -/
def tableSepB (l : Str) : Bool :=
  match l with
  | '|' :: rest =>
    rest.getLast? == some '|' && rest.dropLast ≠ [] &&
      rest.dropLast.all tableSepChar
  | _ => false

inductive WRule
  | unclosedCodeBlock
  | tableBlankLine
  | brokenLink
deriving DecidableEq

structure VWarning where
  line : Nat
  rule : WRule
deriving DecidableEq

/-- `Validator._check_tables`. -/
def checkTables (lines : List Str) (ranges : List (Nat × Nat)) : List VWarning :=
  (List.range (lines.length - 1)).filterMap fun i =>
    if insideClosed (i + 1) ranges then none
    else if tableLineB (lines.getD i []) && tableSepB (lines.getD (i + 1) []) then
      if i = 0 then none
      else if stripWS (lines.getD (i - 1) []) ≠ [] then
        some ⟨i + 1, .tableBlankLine⟩
      else none
    else none

/-- `Validator.validate` (post-write warnings). -/
def validateW (content : Str) : List VWarning :=
  let lines := splitNl content
  let pr := parseCodeBlocks lines
  pr.2.map (fun n => ⟨n, .unclosedCodeBlock⟩) ++ checkTables lines pr.1

/-! ### Wikilink scanners -/

/-- Character admissible in group 1 of `_WIKILINK_RE` and
`_WIKILINK_WITH_SECTION_RE` (the class excludes bracket, pipe and hash). -/
def wlNameChar (c : Char) : Bool := !(c == ']' || c == '|' || c == '#')

/-- Character admissible in the section group of
`_WIKILINK_WITH_SECTION_RE` (the class excludes bracket and pipe). -/
def wlSecChar (c : Char) : Bool := !(c == ']' || c == '|')

/-- Character admissible in the suffix group `[^\]]*?` of the link-rewrite
pattern. -/
def linkSufChar (c : Char) : Bool := !(c == ']')

/-- Match `_WIKILINK_RE = \[\[([^\]|#]+)\]\]` at the head of `s`;
on success, return group 1 and the remainder after the match. -/
def wlMatchAt (s : Str) : Option (Str × Str) :=
  match s with
  | '[' :: '[' :: t =>
    if t.takeWhile wlNameChar = [] then none
    else
      match t.drop (t.takeWhile wlNameChar).length with
      | ']' :: ']' :: r => some (t.takeWhile wlNameChar, r)
      | _ => none
  | _ => none

/-- Fuel-driven body of `extractWikilinks` (the fuel only makes the
recursion structural; it is always run with fuel ≥ length). -/
def extractWikilinksF : Nat → Str → List Str
  | 0, _ => []
  | _ + 1, [] => []
  | fuel + 1, c :: rest =>
    match wlMatchAt (c :: rest) with
    | some p => p.1 :: extractWikilinksF fuel p.2
    | none => extractWikilinksF fuel rest

/-- `Vault._extract_wikilinks`: `re.findall` of `_WIKILINK_RE`
(left-to-right, non-overlapping, retry at the next position on failure). -/
def extractWikilinks (s : Str) : List Str := extractWikilinksF s.length s

/-- Match `_WIKILINK_WITH_SECTION_RE = \[\[([^\]#|]+)(?:#([^\]|]+))?\]\]`
at the head of `s`; on success, return (group 1, optional group 2) and the
remainder. -/
def wlsMatchAt (s : Str) : Option ((Str × Option Str) × Str) :=
  match s with
  | '[' :: '[' :: t =>
    if t.takeWhile wlNameChar = [] then none
    else
      match t.drop (t.takeWhile wlNameChar).length with
      | ']' :: ']' :: r => some ((t.takeWhile wlNameChar, none), r)
      | '#' :: u =>
        if u.takeWhile wlSecChar = [] then none
        else
          match u.drop (u.takeWhile wlSecChar).length with
          | ']' :: ']' :: r => some ((t.takeWhile wlNameChar, some (u.takeWhile wlSecChar)), r)
          | _ => none
      | _ => none
  | _ => none

def extractWikiSecsF : Nat → Str → List (Str × Option Str)
  | 0, _ => []
  | _ + 1, [] => []
  | fuel + 1, c :: rest =>
    match wlsMatchAt (c :: rest) with
    | some q => q.1 :: extractWikiSecsF fuel q.2
    | none => extractWikiSecsF fuel rest

/-- Scan of `_WIKILINK_WITH_SECTION_RE.finditer` over a content string:
the list of (group 1, optional group 2) pairs in document order. -/
def extractWikiSecs (s : Str) : List (Str × Option Str) :=
  extractWikiSecsF s.length s

/-- Match the link-rewrite pattern
`\[\[<old>([|#][^\]]*?)?\]\]` (with `old` regex-escaped, hence literal) at
the head of `s`; on success, return the captured suffix (empty when the
optional group did not participate) and the remainder. -/
def lmMatchAt (old : Str) (s : Str) : Option (Str × Str) :=
  match s with
  | '[' :: '[' :: t =>
    if old.isPrefixOf t then
      match t.drop old.length with
      | ']' :: ']' :: r => some ([], r)
      | c :: u =>
        if c = '|' || c = '#' then
          match u.drop (u.takeWhile linkSufChar).length with
          | ']' :: ']' :: r => some (c :: u.takeWhile linkSufChar, r)
          | _ => none
        else none
      | [] => none
    else none
  | _ => none

def subnLinksF (old new : Str) : Nat → Str → Str × Nat
  | 0, s => (s, 0)
  | _ + 1, [] => ([], 0)
  | fuel + 1, c :: rest =>
    match lmMatchAt old (c :: rest) with
    | some q =>
      ('[' :: '[' :: (new ++ q.1 ++ ']' :: ']' :: (subnLinksF old new fuel q.2).1),
        (subnLinksF old new fuel q.2).2 + 1)
    | none =>
      (c :: (subnLinksF old new fuel rest).1, (subnLinksF old new fuel rest).2)

/-- `re.subn` of the link-rewrite pattern with replacement
`[[<new>\1]]`: the rewritten string and the number of matches. -/
def subnLinks (old new : Str) (s : Str) : Str × Nat :=
  subnLinksF old new s.length s

def replaceAllCntF (needle repl : Str) : Nat → Str → Str × Nat
  | 0, s => (s, 0)
  | _ + 1, [] => if needle = [] then (repl, 1) else ([], 0)
  | fuel + 1, c :: rest =>
    if needle = [] then
      let p := replaceAllCntF needle repl fuel rest
      (repl ++ c :: p.1, p.2 + 1)
    else if needle.isPrefixOf (c :: rest) then
      let p := replaceAllCntF needle repl fuel ((c :: rest).drop needle.length)
      (repl ++ p.1, p.2 + 1)
    else
      let p := replaceAllCntF needle repl fuel rest
      (c :: p.1, p.2)

/-- Python `str.replace(needle, repl)` together with the count of
replaced occurrences (`str.count`): left-to-right, non-overlapping;
an empty needle matches at every position and at the end. -/
def replaceAllCnt (needle repl : Str) (s : Str) : Str × Nat :=
  replaceAllCntF needle repl (s.length + 1) s

/-- Python `str.replace(needle, repl, 1)`. -/
def replaceFirst (needle repl : Str) : Str → Str
  | [] => if needle = [] then repl else []
  | c :: rest =>
    if needle.isPrefixOf (c :: rest) then repl ++ (c :: rest).drop needle.length
    else c :: replaceFirst needle repl rest

/-! ### Section-boundary resolution (`Operations._find_section_bounds`) -/

/-- Match of the section selector against one line.  When the stripped
selector `ss` starts with a hash the line's stripped text must equal it
literally; otherwise the regex `^(#+)\s*<escaped ss>\s*$` is applied to
the stripped line.  Returns the heading level on a match. -/
def matchSel (ss : Str) (line : Str) : Option Nat :=
  let ls := stripWS line
  if ss.head? = some '#' then
    if ls = ss then some (leadingRun (· == '#') ss) else none
  else
    let k := leadingRun (· == '#') ls
    if k = 0 then none
    else if (ls.drop k).dropWhile isWS = ss then some k
    else none

def findHeadAux (ss : Str) : List Str → Nat → Option (Nat × Nat)
  | [], _ => none
  | l :: rest, i =>
    match matchSel ss l with
    | some k => some (i, k)
    | none => findHeadAux ss rest (i + 1)

/-- Terminator test `^#{1,L}\s` on a raw line: a leading `#` run of length
between 1 and `L` followed immediately by a whitespace character. -/
def isTerm (lvl : Nat) (line : Str) : Bool :=
  let k := leadingRun (· == '#') line
  1 ≤ k && k ≤ lvl &&
    (match (line.drop k).head? with
     | some c => isWS c
     | none => false)

def findEndAux (lvl : Nat) : List Str → Nat → Nat
  | [], i => i
  | l :: rest, i => if isTerm lvl l then i else findEndAux lvl rest (i + 1)

/-- `Operations._find_section_bounds`: `(start, end, level)` with `start`
the 0-based index of the first body line and `end` the 0-based exclusive
end, or `none` (section not found). -/
def findSectionBounds (lines : List Str) (section' : Str) : Option (Nat × Nat × Nat) :=
  match findHeadAux (stripWS section') lines 0 with
  | none => none
  | some (i, lvl) =>
    some (i + 1, findEndAux lvl (lines.drop (i + 1)) (i + 1), lvl)

/-- `Operations.get_headings` scan state. -/
structure HeadSt where
  inCode : Bool
  cur : Nat
  acc : List (Nat × Str)
deriving DecidableEq

/-- One line of `Operations.get_headings` (fence lines toggle the state as
in `_parse_code_blocks` but with only an "currently inside" flag;
heading text is `group(2).strip()`). -/
def headStep (st : HeadSt) (line : Str) : HeadSt :=
  let b := fenceLen line
  if 3 ≤ b then
    if st.inCode = false then { st with inCode := true, cur := b }
    else if st.cur ≤ b then { st with inCode := false, cur := 0 }
    else st
  else if st.inCode then st
  else
    match headingMatch line with
    | some p => { st with acc := st.acc ++ [(p.1, stripWS p.2)] }
    | none => st

/-- `Operations.get_headings` applied to a note body. -/
def getHeadingsOf (body : Str) : List (Nat × Str) :=
  ((splitNl body).foldl headStep ⟨false, 0, []⟩).acc

/-! ### The vault: files, notes, index, state -/

/-- One on-disk file of the vault.  `trashed` records whether the file
lives in the `.trash/` subdirectory (the only hidden directory the
modelled operations ever move files into); `raw` is the exact file text. -/
structure VFile where
  name : Str
  trashed : Bool
  raw : Str
deriving DecidableEq

/-- The byte-order mark stripped by `Vault._parse_note`. -/
def bomChar : Char := Char.ofNat 0xFEFF

/-- Python `raw.replace("\r\n", "\n")`. -/
def normCRLF : Str → Str
  | [] => []
  | '\r' :: '\n' :: rest => '\n' :: normCRLF rest
  | c :: rest => c :: normCRLF rest

/-- `_FRONTMATTER_RE = \A---\n(.*?)\n---\n?(.*)` with DOTALL: the lazy
group 1 ends at the earliest `\n---`; the greedy `\n?` then swallows one
newline.  Returns (front-matter text when the pattern matched, body). -/
def parseFM (raw : Str) : Option Str × Str :=
  if ('-' :: '-' :: '-' :: '\n' :: []).isPrefixOf raw then
    match findSubIdx ('\n' :: '-' :: '-' :: '-' :: []) (raw.drop 4) with
    | some i =>
      let rest := (raw.drop 4).drop (i + 4)
      (some ((raw.drop 4).take i),
        if rest.head? = some '\n' then rest.drop 1 else rest)
    | none => (none, raw)
  else (none, raw)

/-- Parsed note.  The YAML decoding of the front-matter block is an
external black box (spec §6); the mapping is modelled by the raw YAML
text, `none` standing for the empty mapping of a file with no
front-matter block. -/
structure NoteM where
  name : Str
  fmY : Option Str
  body : Str
  outgoing : List Str
deriving DecidableEq

/-- `Vault._parse_note`. -/
def parseNote (f : VFile) : NoteM :=
  let raw := normCRLF (f.raw.dropWhile (· == bomChar))
  let pr := parseFM raw
  ⟨f.name, pr.1, pr.2, extractWikilinks pr.2⟩

/-- Dict insertion `notes[note.name] = note`: replace in place when the
key exists, else append. -/
def insertNote : List NoteM → NoteM → List NoteM
  | [], n => [n]
  | m :: rest, n =>
    if m.name = n.name then n :: rest else m :: insertNote rest n

/-- `incoming.setdefault(target, []).append(source)`: dict semantics
(existing key keeps its position, new key appended at the end). -/
def addIncoming : List (Str × List Str) → Str → Str → List (Str × List Str)
  | [], t, src => [(t, [src])]
  | (k, v) :: rest, t, src =>
    if k = t then (k, v ++ [src]) :: rest
    else (k, v) :: addIncoming rest t src

/-- Fold of one note's outgoing links into the reverse map. -/
def addNoteLinks (acc : List (Str × List Str)) (n : NoteM) : List (Str × List Str) :=
  n.outgoing.foldl (fun a t => addIncoming a t n.name) acc

/-- The point-in-time index: name → note, and target → sources. -/
structure IndexM where
  notes : List NoteM
  incoming : List (Str × List Str)
deriving DecidableEq

def lookupNote (idx : IndexM) (name : Str) : Option NoteM :=
  idx.notes.find? (fun n => n.name == name)

def lookupIncoming (inc : List (Str × List Str)) (name : Str) : List Str :=
  match inc with
  | [] => []
  | (k, v) :: rest => if k = name then v else lookupIncoming rest name

/-- `Vault._build_index`: scan the non-hidden files (in the model, the
files outside `.trash/`), parse each into the dict of notes, then invert
every note's outgoing links. -/
def buildIndex (files : List VFile) : IndexM :=
  let notes := (files.filter (fun f => f.trashed = false)).foldl
    (fun acc f => insertNote acc (parseNote f)) []
  ⟨notes, notes.foldl addNoteLinks []⟩

/-- Vault handle state: the on-disk files, the cached index (`none`
before the lazy first build), and a ghost counter of `_build_index`
calls. -/
structure VState where
  files : List VFile
  index : Option IndexM
  rebuilds : Nat
deriving DecidableEq

/-- A fresh vault handle over the given files. -/
def mkVault (files : List VFile) : VState := ⟨files, none, 0⟩

/-- `Vault.refresh` / `_build_index` on the live state. -/
def doRebuild (s : VState) : VState :=
  ⟨s.files, some (buildIndex s.files), s.rebuilds + 1⟩

/-- `Vault._ensure_index`: returns the state (building lazily if needed)
together with the current index. -/
def ensureIndex (s : VState) : VState × IndexM :=
  match s.index with
  | some i => (s, i)
  | none => (doRebuild s, buildIndex s.files)

instance {ε α : Type} [DecidableEq ε] [DecidableEq α] : DecidableEq (Except ε α) :=
  fun x y =>
    match x, y with
    | .ok a, .ok b =>
      if h : a = b then .isTrue (by rw [h])
      else .isFalse (by intro hc; cases hc; exact h rfl)
    | .error a, .error b =>
      if h : a = b then .isTrue (by rw [h])
      else .isFalse (by intro hc; cases hc; exact h rfl)
    | .ok _, .error _ => .isFalse (by intro hc; cases hc)
    | .error _, .ok _ => .isFalse (by intro hc; cases hc)

/-- Result of a state-passing operation. -/
abbrev MRes (α : Type) := VState × Except Err α

/-- `Vault.get_note`: lookup, one silent rebuild on a miss, then either
the note or `NoteNotFoundError`. -/
def getNoteS (name : Str) (s : VState) : MRes NoteM :=
  match lookupNote (ensureIndex s).2 name with
  | some n => ((ensureIndex s).1, .ok n)
  | none =>
    match lookupNote (buildIndex (ensureIndex s).1.files) name with
    | some n => (doRebuild (ensureIndex s).1, .ok n)
    | none => (doRebuild (ensureIndex s).1, .error .noteNotFound)

/-- `Vault.get_incoming_links` (empty list when the target is unknown —
never an error, and no rebuild on a miss). -/
def getIncomingS (name : Str) (s : VState) : VState × List Str :=
  ((ensureIndex s).1, lookupIncoming (ensureIndex s).2.incoming name)

/-- Existence / read of the root-directory file `<name>.md`. -/
def findRoot (files : List VFile) (name : Str) : Option VFile :=
  files.find? (fun f => f.trashed = false && f.name == name)

/-- Overwrite of the root-directory file `<name>.md`. -/
def writeRoot (files : List VFile) (name : Str) (new : Str) : List VFile :=
  files.map fun f =>
    if f.trashed = false && f.name == name then ⟨f.name, f.trashed, new⟩ else f

/-- `path.rename(new_path)` for a rename inside the root directory. -/
def renameRoot (files : List VFile) (old new : Str) : List VFile :=
  files.map fun f =>
    if f.trashed = false && f.name == old then ⟨new, false, f.raw⟩ else f

/-- `note.path.rename(trash_path)`: move the root file into `.trash/`,
overwriting a file of the same name already there (POSIX rename). -/
def trashRoot (files : List VFile) (name : Str) : List VFile :=
  (files.filter (fun f => !(f.trashed = true && f.name == name))).map fun f =>
    if f.trashed = false && f.name == name then ⟨f.name, true, f.raw⟩ else f

/-- `---\n<yaml>\n---\n<body>` framing, emitted only for a non-empty
mapping (`Operations._serialize_note`; the YAML re-encoding is the spec
§6 black box, modelled as the identity on the stored text). -/
def serializeNote (fm : Option Str) (body : Str) : Str :=
  match fm with
  | none => body
  | some y => '-' :: '-' :: '-' :: '\n' :: (y ++ '\n' :: '-' :: '-' :: '-' :: '\n' :: body)

/-! ### Operations -/

/-- `Operations._validate_wikilinks` inner loop over the scanned links:
a dangling target is only a warning (the `get_note` call still performs
its silent rebuild); a resolving target with a section name that is not
among the target's headings raises `BrokenLinkError`. -/
def checkLinkList : List (Str × Option Str) → VState → MRes Unit
  | [], s => (s, .ok ())
  | (nm, sec) :: rest, s =>
    match getNoteS (stripWS nm) s with
    | (s1, .error _) => checkLinkList rest s1
    | (s1, .ok note) =>
      match sec with
      | none => checkLinkList rest s1
      | some sc =>
        if stripWS sc = [] then checkLinkList rest s1
        else if (getHeadingsOf note.body).any (fun h => h.2 == stripWS sc) then
          checkLinkList rest s1
        else (s1, .error .brokenLink)

def validateWikilinksS (content : Str) (s : VState) : MRes Unit :=
  checkLinkList (extractWikiSecs content) s

/-- `Operations.create`. -/
def opCreate (name content : Str) (fm : Option Str) (s : VState) : MRes Unit :=
  match validateNameErr name with
  | some e => (s, .error e)
  | none =>
    match validateHeadingsErr content with
    | some e => (s, .error e)
    | none =>
      match validateWikilinksS content s with
      | (s1, .error e) => (s1, .error e)
      | (s1, .ok _) =>
        if (findRoot s1.files name).isSome then (s1, .error .noteAlreadyExists)
        else
          (doRebuild ⟨s1.files ++ [⟨name, false, serializeNote fm content⟩],
            s1.index, s1.rebuilds⟩, .ok ())

/-- `Operations.read`: raw text of the resolved file. -/
def opRead (name : Str) (s : VState) : MRes Str :=
  match getNoteS name s with
  | (s1, .error e) => (s1, .error e)
  | (s1, .ok note) =>
    match findRoot s1.files note.name with
    | some f => (s1, .ok f.raw)
    | none => (s1, .error .ioError)

/-- `Operations.append`: the raw current file text plus a canonical
blank-line separator plus the text, validated in full before the write. -/
def opAppend (name text : Str) (s : VState) : MRes Unit :=
  match getNoteS name s with
  | (s1, .error e) => (s1, .error e)
  | (s1, .ok note) =>
    match findRoot s1.files note.name with
    | none => (s1, .error .ioError)
    | some f =>
      match validateHeadingsErr (f.raw ++ '\n' :: '\n' :: text) with
      | some e => (s1, .error e)
      | none =>
        match validateWikilinksS (f.raw ++ '\n' :: '\n' :: text) s1 with
        | (s2, .error e) => (s2, .error e)
        | (s2, .ok _) =>
          (doRebuild ⟨writeRoot s2.files note.name (f.raw ++ '\n' :: '\n' :: text),
            s2.index, s2.rebuilds⟩, .ok ())

/-- `Operations.update`: replace the body, copying the front matter. -/
def opUpdate (name content : Str) (s : VState) : MRes Unit :=
  match getNoteS name s with
  | (s1, .error e) => (s1, .error e)
  | (s1, .ok note) =>
    match validateHeadingsErr content with
    | some e => (s1, .error e)
    | none =>
      match validateWikilinksS content s1 with
      | (s2, .error e) => (s2, .error e)
      | (s2, .ok _) =>
        (doRebuild ⟨writeRoot s2.files note.name (serializeNote note.fmY content),
          s2.index, s2.rebuilds⟩, .ok ())

/-- `Operations._update_links_in_file`: regex-subn the wikilinks of
`old` to `new`, writing only when at least one occurrence matched. -/
def updateLinksFile (fname old new : Str) (s : VState) : MRes Unit :=
  match findRoot s.files fname with
  | none => (s, .error .ioError)
  | some f =>
    if (subnLinks old new f.raw).2 = 0 then (s, .ok ())
    else (⟨writeRoot s.files fname (subnLinks old new f.raw).1,
      s.index, s.rebuilds⟩, .ok ())

/-- The referring-file loop shared by delete and rename. -/
def rewriteRefs (old new : Str) : List Str → VState → MRes Unit
  | [], s => (s, .ok ())
  | ref :: rest, s =>
    match getNoteS ref s with
    | (s1, .error e) => (s1, .error e)
    | (s1, .ok refNote) =>
      match updateLinksFile refNote.name old new s1 with
      | (s2, .error e) => (s2, .error e)
      | (s2, .ok _) => rewriteRefs old new rest s2

structure DeleteRes where
  name : Str
  filesUpdated : List Str
deriving DecidableEq

/-- The `<name> (deleted)` replacement target used by `Operations.delete`. -/
def deletedName (name : Str) : Str :=
  name ++ (' ' :: '(' :: 'd' :: 'e' :: 'l' :: 'e' :: 't' :: 'e' :: 'd' :: ')' :: [])

/-- `Operations.delete`. -/
def opDelete (name : Str) (dryRun : Bool) (s : VState) : MRes DeleteRes :=
  match getNoteS name s with
  | (s1, .error e) => (s1, .error e)
  | (s1, .ok note) =>
    if dryRun then ((getIncomingS name s1).1, .ok ⟨name, (getIncomingS name s1).2⟩)
    else
      match rewriteRefs name (deletedName name) (getIncomingS name s1).2
          (getIncomingS name s1).1 with
      | (s3, .error e) => (s3, .error e)
      | (s3, .ok _) =>
        (doRebuild ⟨trashRoot s3.files note.name, s3.index, s3.rebuilds⟩,
          .ok ⟨name, (getIncomingS name s1).2⟩)

structure RenameRes where
  oldName : Str
  newName : Str
  filesUpdated : List Str
deriving DecidableEq

/-- `Operations.rename`. -/
def opRename (oldName newName : Str) (dryRun : Bool) (s : VState) : MRes RenameRes :=
  match validateNameErr newName with
  | some e => (s, .error e)
  | none =>
    match getNoteS oldName s with
    | (s1, .error e) => (s1, .error e)
    | (s1, .ok note) =>
      if (findRoot s1.files newName).isSome then (s1, .error .noteAlreadyExists)
      else
        if dryRun then
          ((getIncomingS oldName s1).1, .ok ⟨oldName, newName, (getIncomingS oldName s1).2⟩)
        else
          match rewriteRefs oldName newName (getIncomingS oldName s1).2
              (getIncomingS oldName s1).1 with
          | (s3, .error e) => (s3, .error e)
          | (s3, .ok _) =>
            (doRebuild ⟨renameRoot s3.files note.name newName, s3.index, s3.rebuilds⟩,
              .ok ⟨oldName, newName, (getIncomingS oldName s1).2⟩)

/-- Modelled from the spec: the YAML mapping update of
`Operations.frontmatter_set` goes through the external encode/decode
black box of §6 (absent from `src/`); the model keeps the raw text and
appends one `key: value` line, which is enough for the framing and
error-order behaviour the claims are about. -/
def fmSetText (fm : Option Str) (key val : Str) : Option Str :=
  some ((fm.getD []) ++ key ++ ':' :: ' ' :: val)

/-- `Operations.frontmatter_set` (no blocking validation; immediate write). -/
def opFrontmatterSet (name key val : Str) (s : VState) : MRes Unit :=
  match getNoteS name s with
  | (s1, .error e) => (s1, .error e)
  | (s1, .ok note) =>
    (doRebuild ⟨writeRoot s1.files note.name
        (serializeNote (fmSetText note.fmY key val) note.body),
      s1.index, s1.rebuilds⟩, .ok ())

/-- `Operations.replace`. -/
def opReplace (name oldT newT : Str) (replaceAll : Bool) (s : VState) : MRes Nat :=
  match getNoteS name s with
  | (s1, .error e) => (s1, .error e)
  | (s1, .ok note) =>
    if strContains oldT note.body = false then (s1, .error .textNotFound)
    else
      if replaceAll then
        (doRebuild ⟨writeRoot s1.files note.name
            (serializeNote note.fmY (replaceAllCnt oldT newT note.body).1),
          s1.index, s1.rebuilds⟩, .ok (replaceAllCnt oldT newT note.body).2)
      else
        (doRebuild ⟨writeRoot s1.files note.name
            (serializeNote note.fmY (replaceFirst oldT newT note.body)),
          s1.index, s1.rebuilds⟩, .ok 1)

/-- `Operations.insert`. -/
def opInsert (name text : Str) (before after : Option Str) (s : VState) : MRes Unit :=
  if (before.isNone) = (after.isNone) then (s, .error .invalidArgument)
  else
    match getNoteS name s with
    | (s1, .error e) => (s1, .error e)
    | (s1, .ok note) =>
      match (splitNl note.body).findIdx?
          (fun l => stripWS l == stripWS (before.getD (after.getD []))) with
      | none => (s1, .error .textNotFound)
      | some i =>
        (doRebuild ⟨writeRoot s1.files note.name
            (serializeNote note.fmY (joinNl (insertAt
              (if before.isSome then i else i + 1) text (splitNl note.body)))),
          s1.index, s1.rebuilds⟩, .ok ())

/-- `Operations.read_section`. -/
def opReadSection (name section' : Str) (s : VState) : MRes Str :=
  match getNoteS name s with
  | (s1, .error e) => (s1, .error e)
  | (s1, .ok note) =>
    match findSectionBounds (splitNl note.body) section' with
    | none => (s1, .error .sectionNotFound)
    | some (st, en, _) =>
      (s1, .ok (stripWS (joinNl (((splitNl note.body).drop st).take (en - st)))))

/-- `Operations.append_section`. -/
def opAppendSection (name section' text : Str) (s : VState) : MRes Unit :=
  match getNoteS name s with
  | (s1, .error e) => (s1, .error e)
  | (s1, .ok note) =>
    match findSectionBounds (splitNl note.body) section' with
    | none => (s1, .error .sectionNotFound)
    | some (_, en, _) =>
      match validateHeadingsErr (joinNl (insertAt en text (splitNl note.body))) with
      | some e => (s1, .error e)
      | none =>
        match validateWikilinksS (joinNl (insertAt en text (splitNl note.body))) s1 with
        | (s2, .error e) => (s2, .error e)
        | (s2, .ok _) =>
          (doRebuild ⟨writeRoot s2.files note.name
              (serializeNote note.fmY (joinNl (insertAt en text (splitNl note.body)))),
            s2.index, s2.rebuilds⟩, .ok ())

/-- The new body built by `Operations.update_section` (heading line kept,
the strict interior replaced by the single `content` element). -/
def updSecBody (lines : List Str) (st en : Nat) (content : Str) : Str :=
  joinNl (lines.take (st - 1) ++ [lines.getD (st - 1) [], content] ++ lines.drop en)

/-- `Operations.update_section`. -/
def opUpdateSection (name section' content : Str) (s : VState) : MRes Unit :=
  match getNoteS name s with
  | (s1, .error e) => (s1, .error e)
  | (s1, .ok note) =>
    match findSectionBounds (splitNl note.body) section' with
    | none => (s1, .error .sectionNotFound)
    | some (st, en, _) =>
      match validateHeadingsErr (updSecBody (splitNl note.body) st en content) with
      | some e => (s1, .error e)
      | none =>
        match validateWikilinksS (updSecBody (splitNl note.body) st en content) s1 with
        | (s2, .error e) => (s2, .error e)
        | (s2, .ok _) =>
          (doRebuild ⟨writeRoot s2.files note.name
              (serializeNote note.fmY (updSecBody (splitNl note.body) st en content)),
            s2.index, s2.rebuilds⟩, .ok ())

/-- `Operations.delete_section` (no blocking validation before the write). -/
def opDeleteSection (name section' : Str) (s : VState) : MRes Unit :=
  match getNoteS name s with
  | (s1, .error e) => (s1, .error e)
  | (s1, .ok note) =>
    match findSectionBounds (splitNl note.body) section' with
    | none => (s1, .error .sectionNotFound)
    | some (st, en, _) =>
      (doRebuild ⟨writeRoot s1.files note.name
          (serializeNote note.fmY
            (joinNl ((splitNl note.body).take (st - 1) ++ (splitNl note.body).drop en))),
        s1.index, s1.rebuilds⟩, .ok ())

/-- `Operations.get_headings` as an operation. -/
def opGetHeadings (name : Str) (s : VState) : MRes (List (Nat × Str)) :=
  match getNoteS name s with
  | (s1, .error e) => (s1, .error e)
  | (s1, .ok note) => (s1, .ok (getHeadingsOf note.body))

inductive LinkDir
  | outgoing
  | incoming
  | both
deriving DecidableEq

/-- `Operations.links`. -/
def opLinks (name : Str) (d : LinkDir) (s : VState) : MRes (List Str × List Str) :=
  match getNoteS name s with
  | (s1, .error e) => (s1, .error e)
  | (s1, .ok note) =>
    if d = LinkDir.incoming ∨ d = LinkDir.both then
      ((getIncomingS name s1).1,
        .ok ((if d = LinkDir.both then note.outgoing else []), (getIncomingS name s1).2))
    else (s1, .ok (note.outgoing, []))

/-- `Operations.batch_rename` (sequential; an error aborts the rest but
keeps the earlier renames). -/
def opBatchRename (dryRun : Bool) : List (Str × Str) → VState → MRes (List RenameRes)
  | [], s => (s, .ok [])
  | (o, n) :: rest, s =>
    match opRename o n dryRun s with
    | (s1, .error e) => (s1, .error e)
    | (s1, .ok r) =>
      match opBatchRename dryRun rest s1 with
      | (s2, .error e) => (s2, .error e)
      | (s2, .ok rs) => (s2, .ok (r :: rs))

/-- The non-batch operations of §4.4, as one invocation type. -/
inductive OpCall
  | create (name content : Str) (fm : Option Str)
  | readNote (name : Str)
  | append (name text : Str)
  | update (name content : Str)
  | delete (name : Str) (dryRun : Bool)
  | rename (o n : Str) (dryRun : Bool)
  | fmSet (name key val : Str)
  | replaceText (name o n : Str) (all : Bool)
  | insertText (name text : Str) (before after : Option Str)
  | readSection (name section' : Str)
  | appendSection (name section' text : Str)
  | updateSection (name section' content : Str)
  | deleteSection (name section' : Str)
  | getHeadings (name : Str)
  | links (name : Str) (d : LinkDir)

def eraseVal : MRes α → VState × Except Err Unit
  | (s, .ok _) => (s, .ok ())
  | (s, .error e) => (s, .error e)

/-- Run one operation, discarding the success value. -/
def runOp : OpCall → VState → VState × Except Err Unit
  | .create name content fm, s => eraseVal (opCreate name content fm s)
  | .readNote name, s => eraseVal (opRead name s)
  | .append name text, s => eraseVal (opAppend name text s)
  | .update name content, s => eraseVal (opUpdate name content s)
  | .delete name dr, s => eraseVal (opDelete name dr s)
  | .rename o n dr, s => eraseVal (opRename o n dr s)
  | .fmSet name k v, s => eraseVal (opFrontmatterSet name k v s)
  | .replaceText name o n all, s => eraseVal (opReplace name o n all s)
  | .insertText name text b a, s => eraseVal (opInsert name text b a s)
  | .readSection name sec, s => eraseVal (opReadSection name sec s)
  | .appendSection name sec text, s => eraseVal (opAppendSection name sec text s)
  | .updateSection name sec content, s => eraseVal (opUpdateSection name sec content s)
  | .deleteSection name sec, s => eraseVal (opDeleteSection name sec s)
  | .getHeadings name, s => eraseVal (opGetHeadings name s)
  | .links name d, s => eraseVal (opLinks name d s)

/-- A well-formed handle state: the cached index, when present, is the
one built from the current files (no external on-disk change since the
last build). -/
def wfState (s : VState) : Prop :=
  s.index = none ∨ s.index = some (buildIndex s.files)

/-- The per-note contribution of the reverse map, in note order. -/
def incomingSpec (T : Str) : List NoteM → List Str
  | [] => []
  | n :: rest => List.replicate (countOcc T n.outgoing) n.name ++ incomingSpec T rest


/-- Location identity of a file: name and directory. -/
def fileKey (f : VFile) : Str × Bool := (f.name, f.trashed)


/-- One application of the link rewrite. -/
def applyRw (old new : Str) (x : Str) : Str := (subnLinks old new x).1

/-- Iterated link rewrite (first application innermost). -/
def iterRw (old new : Str) : Nat → Str → Str
  | 0, x => x
  | n + 1, x => iterRw old new n (applyRw old new x)


/-- The body-string predicate `validate_headings` enforces: some line is a
heading with Cyrillic text and lies outside every closed fence range. -/
def CyrHeadingOutsideClosed (c : Str) : Prop :=
  ∃ j, j < (splitNl c).length ∧
    insideClosed (j + 1) (parseCodeBlocks (splitNl c)).1 = false ∧
    headingCyrLine ((splitNl c).getD j []) = true

/-- Two-note vault: the referrer holds only an aliased link. -/
def demoAliasOnly : List VFile :=
  [⟨"A".data, false, "x [[B|Alias]] y".data⟩, ⟨"B".data, false, "hi".data⟩]

/-- Two-note vault: the referrer holds a plain and an aliased link. -/
def demoPlainAlias : List VFile :=
  [⟨"A".data, false, "see [[B]] and [[B|Al]]".data⟩, ⟨"B".data, false, "hi".data⟩]

/-- One-note vault whose only note links twice to the same target. -/
def demoDupLinks : List VFile :=
  [⟨"A".data, false, "[[T]] and [[T]]".data⟩]

/-- Two-note vault with one plain link. -/
def demoPlain : List VFile :=
  [⟨"A".data, false, "See [[B]] x".data⟩, ⟨"B".data, false, "hi".data⟩]

/-- Two plain notes with no links. -/
def demoTwo : List VFile :=
  [⟨"A".data, false, "x".data⟩, ⟨"C".data, false, "y".data⟩]

/-- One note whose front-matter block holds a Cyrillic YAML comment line. -/
def demoFmCyr : List VFile :=
  [⟨"N".data, false, "---\n# Привет\n---\nbody".data⟩]

/-- One note with two sibling sections. -/
def demoSections : List VFile :=
  [⟨"N".data, false, "## H\nX\n## H2\nY".data⟩]

/-! ### Lemmas: the reverse-link map -/

theorem wlMatchAt_length {s g r : Str} (h : wlMatchAt s = some (g, r)) :
    r.length < s.length := by
  unfold wlMatchAt at h
  split at h
  · rename_i t
    split at h
    · exact absurd h (by simp)
    · split at h
      · rename_i r0 hdrop
        have hlen : (t.drop (t.takeWhile wlNameChar).length).length = r0.length + 2 := by
          rw [hdrop]; simp
        have hle : (t.drop (t.takeWhile wlNameChar).length).length ≤ t.length := by
          simp
        simp only [Option.some.injEq, Prod.mk.injEq] at h
        obtain ⟨hg, hr⟩ := h
        subst hr
        simp only [List.length_cons]
        omega
      · exact absurd h (by simp)
  · exact absurd h (by simp)


theorem wlsMatchAt_length {s : Str} {p : Str × Option Str} {r : Str}
    (h : wlsMatchAt s = some (p, r)) : r.length < s.length := by
  unfold wlsMatchAt at h
  split at h
  · rename_i t
    split at h
    · exact absurd h (by simp)
    · split at h
      · rename_i r0 hdrop
        have hlen : (t.drop (t.takeWhile wlNameChar).length).length = r0.length + 2 := by
          rw [hdrop]; simp
        have hle : (t.drop (t.takeWhile wlNameChar).length).length ≤ t.length := by simp
        simp only [Option.some.injEq, Prod.mk.injEq] at h
        obtain ⟨-, hr⟩ := h
        subst hr
        simp only [List.length_cons]
        omega
      · rename_i u hdrop
        split at h
        · exact absurd h (by simp)
        · split at h
          · rename_i r0 hdrop2
            have hlen2 : (u.drop (u.takeWhile wlSecChar).length).length = r0.length + 2 := by
              rw [hdrop2]; simp
            have hle2 : (u.drop (u.takeWhile wlSecChar).length).length ≤ u.length := by simp
            have hlen1 : (t.drop (t.takeWhile wlNameChar).length).length = u.length + 1 := by
              rw [hdrop]; simp
            have hle1 : (t.drop (t.takeWhile wlNameChar).length).length ≤ t.length := by simp
            simp only [Option.some.injEq, Prod.mk.injEq] at h
            obtain ⟨-, hr⟩ := h
            subst hr
            simp only [List.length_cons]
            omega
          · exact absurd h (by simp)
      · exact absurd h (by simp)
  · exact absurd h (by simp)


theorem lmMatchAt_length {old s suf r : Str} (h : lmMatchAt old s = some (suf, r)) :
    r.length < s.length := by
  unfold lmMatchAt at h
  split at h
  · rename_i t
    split at h
    · split at h
      · rename_i r0 hdrop
        have hlen : (t.drop old.length).length = r0.length + 2 := by rw [hdrop]; simp
        have hle : (t.drop old.length).length ≤ t.length := by simp
        simp only [Option.some.injEq, Prod.mk.injEq] at h
        obtain ⟨-, hr⟩ := h
        subst hr
        simp only [List.length_cons]
        omega
      · rename_i cc ctail hne hdrop
        split at h
        · split at h
          · rename_i r0 hdrop2
            have hlen2 : (ctail.drop (ctail.takeWhile linkSufChar).length).length = r0.length + 2 := by
              rw [hdrop2]; simp
            have hle2 : (ctail.drop (ctail.takeWhile linkSufChar).length).length ≤ ctail.length := by
              simp
            have hlen1 : (t.drop old.length).length = ctail.length + 1 := by rw [hdrop]; simp
            have hle1 : (t.drop old.length).length ≤ t.length := by simp
            simp only [Option.some.injEq, Prod.mk.injEq] at h
            obtain ⟨-, hr⟩ := h
            subst hr
            simp only [List.length_cons]
            omega
          · exact absurd h (by simp)
        · exact absurd h (by simp)
      · exact absurd h (by simp)
    · exact absurd h (by simp)
  · exact absurd h (by simp)




theorem countOcc_append [DecidableEq α] (x : α) (l1 l2 : List α) :
    countOcc x (l1 ++ l2) = countOcc x l1 + countOcc x l2 := by
  induction l1 with
  | nil => simp [countOcc]
  | cons y l ih => simp [countOcc, ih]; omega

theorem countOcc_replicate [DecidableEq α] (x y : α) (k : Nat) :
    countOcc x (List.replicate k y) = if y = x then k else 0 := by
  induction k with
  | zero => simp [countOcc]
  | succ n ih => simp [List.replicate_succ, countOcc, ih]; split <;> omega

theorem countOcc_pos_iff_mem [DecidableEq α] (x : α) (l : List α) :
    0 < countOcc x l ↔ x ∈ l := by
  induction l with
  | nil => simp [countOcc]
  | cons y t ih =>
    simp only [countOcc, List.mem_cons]
    by_cases h : y = x
    · subst h; simp
    · have hx : ¬ x = y := fun hc => h hc.symm
      simp [h, hx, ih]

theorem countOcc_eq_zero_of_not_mem [DecidableEq α] {x : α} {l : List α}
    (h : x ∉ l) : countOcc x l = 0 := by
  by_contra hc
  exact h ((countOcc_pos_iff_mem x l).1 (Nat.pos_of_ne_zero hc))

theorem lookupIncoming_addIncoming (acc : List (Str × List Str)) (t src T : Str) :
    lookupIncoming (addIncoming acc t src) T =
      if t = T then lookupIncoming acc T ++ [src] else lookupIncoming acc T := by
  induction acc with
  | nil =>
    simp only [addIncoming, lookupIncoming]
    by_cases h : t = T <;> simp [h]
  | cons p rest ih =>
    obtain ⟨k, v⟩ := p
    simp only [addIncoming]
    by_cases hk : k = t
    · subst hk
      simp only [if_pos rfl, lookupIncoming]
      by_cases hT : k = T <;> simp [hT]
    · simp only [if_neg hk, lookupIncoming]
      by_cases hT : k = T
      · subst hT
        have hnt : ¬ t = k := fun hc => hk hc.symm
        simp [hnt]
      · simp [hT, ih]

theorem lookupIncoming_foldAdd (nm T : Str) (outs : List Str) :
    ∀ acc, lookupIncoming (outs.foldl (fun a t => addIncoming a t nm) acc) T =
      lookupIncoming acc T ++ List.replicate (countOcc T outs) nm := by
  induction outs with
  | nil => intro acc; simp [countOcc]
  | cons t ts ih =>
    intro acc
    simp only [List.foldl_cons, ih, lookupIncoming_addIncoming, countOcc]
    by_cases h : t = T
    · subst h
      simp only [if_true, List.append_assoc, List.singleton_append]
      rw [Nat.add_comm 1 (countOcc t ts), List.replicate_succ]
    · simp [h]

theorem lookupIncoming_foldNotes (T : Str) (notes : List NoteM) :
    ∀ acc, lookupIncoming (notes.foldl addNoteLinks acc) T =
      lookupIncoming acc T ++ incomingSpec T notes := by
  induction notes with
  | nil => intro acc; simp [incomingSpec]
  | cons n rest ih =>
    intro acc
    simp only [List.foldl_cons, ih, incomingSpec]
    rw [addNoteLinks, lookupIncoming_foldAdd, List.append_assoc]

theorem lookupIncoming_buildIndex (files : List VFile) (T : Str) :
    lookupIncoming (buildIndex files).incoming T =
      incomingSpec T (buildIndex files).notes := by
  show lookupIncoming ((buildIndex files).notes.foldl addNoteLinks []) T = _
  rw [lookupIncoming_foldNotes]
  simp [lookupIncoming]

theorem mem_incomingSpec (T src : Str) (notes : List NoteM) :
    src ∈ incomingSpec T notes ↔
      ∃ n, n ∈ notes ∧ n.name = src ∧ T ∈ n.outgoing := by
  induction notes with
  | nil => simp [incomingSpec]
  | cons n rest ih =>
    simp only [incomingSpec, List.mem_append, List.mem_replicate, ih, List.mem_cons]
    constructor
    · rintro (⟨hk, hnm⟩ | ⟨m, hm, hnm, hT⟩)
      · exact ⟨n, Or.inl rfl, hnm.symm,
          (countOcc_pos_iff_mem T n.outgoing).1 (Nat.pos_of_ne_zero hk)⟩
      · exact ⟨m, Or.inr hm, hnm, hT⟩
    · rintro ⟨m, (rfl | hm), hnm, hT⟩
      · exact Or.inl ⟨Nat.pos_iff_ne_zero.1 ((countOcc_pos_iff_mem T m.outgoing).2 hT),
          hnm.symm⟩
      · exact Or.inr ⟨m, hm, hnm, hT⟩

theorem countOcc_incomingSpec_of_not_mem (T src : Str) (notes : List NoteM)
    (h : ∀ n ∈ notes, n.name ≠ src) : countOcc src (incomingSpec T notes) = 0 := by
  induction notes with
  | nil => simp [incomingSpec, countOcc]
  | cons n rest ih =>
    simp only [incomingSpec, countOcc_append, countOcc_replicate]
    rw [if_neg (h n (List.mem_cons_self n rest)), ih]
    intro m hm
    exact h m (List.mem_cons_of_mem n hm)

theorem countOcc_incomingSpec (T src : Str) (notes : List NoteM)
    (hnd : (notes.map NoteM.name).Nodup) :
    countOcc src (incomingSpec T notes) =
      match notes.find? (fun n => n.name == src) with
      | some n => countOcc T n.outgoing
      | none => 0 := by
  induction notes with
  | nil => simp [incomingSpec, countOcc]
  | cons n rest ih =>
    simp only [List.map_cons, List.nodup_cons] at hnd
    obtain ⟨hnin, hnd'⟩ := hnd
    simp only [incomingSpec, countOcc_append, countOcc_replicate, List.find?_cons]
    by_cases h : n.name = src
    · subst h
      simp only [if_pos rfl, beq_self_eq_true]
      have hz : countOcc n.name (incomingSpec T rest) = 0 := by
        apply countOcc_incomingSpec_of_not_mem
        intro m hm hc
        exact hnin (hc ▸ List.mem_map_of_mem NoteM.name hm)
      rw [hz]
      simp
    · have hb : (n.name == src) = false := by
        simp [h]
      simp only [if_neg h, hb, Nat.zero_add]
      exact ih hnd'

theorem insertNote_names (acc : List NoteM) (n : NoteM) :
    (insertNote acc n).map NoteM.name =
      if n.name ∈ acc.map NoteM.name then acc.map NoteM.name
      else acc.map NoteM.name ++ [n.name] := by
  induction acc with
  | nil => simp [insertNote]
  | cons m rest ih =>
    simp only [insertNote]
    by_cases h : m.name = n.name
    · simp [h]
    · have : ¬ n.name = m.name := fun hc => h hc.symm
      simp [h, this, ih]
      split <;> simp

theorem insertNote_names_nodup (acc : List NoteM) (n : NoteM)
    (h : (acc.map NoteM.name).Nodup) : ((insertNote acc n).map NoteM.name).Nodup := by
  rw [insertNote_names]
  split
  · exact h
  · rename_i hnin
    simp only [List.nodup_append, List.nodup_cons]
    refine ⟨h, by simp, ?_⟩
    intro a ha hb
    simp only [List.mem_singleton] at hb
    exact hnin (hb ▸ ha)

theorem foldl_insertNote_names_nodup (ms : List NoteM) :
    ∀ acc, (acc.map NoteM.name).Nodup →
      ((ms.foldl insertNote acc).map NoteM.name).Nodup := by
  induction ms with
  | nil => intro acc h; exact h
  | cons m rest ih =>
    intro acc h
    exact ih (insertNote acc m) (insertNote_names_nodup acc m h)

theorem buildIndex_notes_eq (files : List VFile) :
    (buildIndex files).notes =
      ((files.filter (fun f => f.trashed = false)).map parseNote).foldl insertNote [] := by
  show (files.filter (fun f => f.trashed = false)).foldl
      (fun acc f => insertNote acc (parseNote f)) [] = _
  rw [List.foldl_map]

theorem buildIndex_names_nodup (files : List VFile) :
    ((buildIndex files).notes.map NoteM.name).Nodup := by
  rw [buildIndex_notes_eq]
  exact foldl_insertNote_names_nodup _ [] (by simp)

theorem mem_insertNote {acc : List NoteM} {n m : NoteM}
    (h : m ∈ insertNote acc n) : m ∈ acc ∨ m = n := by
  induction acc with
  | nil => simp only [insertNote, List.mem_singleton] at h; exact Or.inr h
  | cons a rest ih =>
    simp only [insertNote] at h
    split at h
    · rcases List.mem_cons.1 h with h1 | h1
      · exact Or.inr h1
      · exact Or.inl (List.mem_cons_of_mem a h1)
    · rcases List.mem_cons.1 h with h1 | h1
      · exact Or.inl (h1 ▸ List.mem_cons_self a rest)
      · rcases ih h1 with h2 | h2
        · exact Or.inl (List.mem_cons_of_mem a h2)
        · exact Or.inr h2

theorem mem_foldl_insertNote (ms : List NoteM) :
    ∀ acc m, m ∈ ms.foldl insertNote acc → m ∈ acc ∨ m ∈ ms := by
  induction ms with
  | nil => intro acc m h; exact Or.inl h
  | cons a rest ih =>
    intro acc m h
    rcases ih (insertNote acc a) m h with h1 | h1
    · rcases mem_insertNote h1 with h2 | h2
      · exact Or.inl h2
      · exact Or.inr (h2 ▸ List.mem_cons_self a rest)
    · exact Or.inr (List.mem_cons_of_mem a h1)

theorem buildIndex_notes_from_files {files : List VFile} {n : NoteM}
    (h : n ∈ (buildIndex files).notes) :
    ∃ f, f ∈ files ∧ f.trashed = false ∧ f.name = n.name := by
  rw [buildIndex_notes_eq] at h
  have h1 : n ∈ ([] : List NoteM) ∨
      n ∈ (files.filter (fun f => f.trashed = false)).map parseNote :=
    mem_foldl_insertNote _ [] n h
  rcases h1 with h1 | h1
  · simp at h1
  · obtain ⟨f, hf, hparse⟩ := List.mem_map.1 h1
    have hmem := List.mem_filter.1 hf
    refine ⟨f, hmem.1, by simpa using hmem.2, ?_⟩
    rw [← hparse]
    rfl

/-! ### Lemmas: state plumbing -/

theorem lookupNote_name {idx : IndexM} {nm : Str} {n : NoteM}
    (h : lookupNote idx nm = some n) : n.name = nm := by
  have := List.find?_some h
  simpa using this

theorem lookupNote_mem {idx : IndexM} {nm : Str} {n : NoteM}
    (h : lookupNote idx nm = some n) : n ∈ idx.notes :=
  List.mem_of_find?_eq_some h

theorem findRoot_cons (x : VFile) (l : List VFile) (A : Str) :
    findRoot (x :: l) A =
      if (x.trashed = false && x.name == A) = true then some x else findRoot l A := by
  unfold findRoot
  rw [List.find?_cons]
  cases hc : (decide (x.trashed = false) && x.name == A) <;> simp [hc]

theorem findRoot_isSome_key {files files' : List VFile}
    (h : files.map fileKey = files'.map fileKey) (nm : Str) :
    (findRoot files nm).isSome = (findRoot files' nm).isSome := by
  induction files generalizing files' with
  | nil =>
    cases files' with
    | nil => rfl
    | cons g gs => simp at h
  | cons f fs ih =>
    cases files' with
    | nil => simp at h
    | cons g gs =>
      simp only [List.map_cons, List.cons.injEq] at h
      obtain ⟨hk, hrest⟩ := h
      have hname : f.name = g.name := congrArg Prod.fst hk
      have htr : f.trashed = g.trashed := congrArg Prod.snd hk
      rw [findRoot_cons, findRoot_cons]
      by_cases hc : (f.trashed = false && f.name == nm) = true
      · rw [if_pos hc, if_pos (by rw [← hname, ← htr]; exact hc)]
        rfl
      · rw [if_neg hc, if_neg (by rw [← hname, ← htr]; exact hc)]
        exact ih hrest

theorem writeRoot_cons (f : VFile) (fs : List VFile) (nm : Str) (c : Str) :
    writeRoot (f :: fs) nm c =
      (if f.trashed = false && f.name == nm then (⟨f.name, f.trashed, c⟩ : VFile) else f)
        :: writeRoot fs nm c := by
  simp [writeRoot]

theorem writeRoot_key (files : List VFile) (nm : Str) (c : Str) :
    (writeRoot files nm c).map fileKey = files.map fileKey := by
  induction files with
  | nil => rfl
  | cons f fs ih =>
    rw [writeRoot_cons]
    simp only [List.map_cons, ih]
    split
    · simp [fileKey]
    · rfl

theorem findRoot_writeRoot (files : List VFile) (nm A : Str) (c : Str) :
    findRoot (writeRoot files nm c) A =
      if A = nm then (findRoot files A).map (fun f => (⟨f.name, f.trashed, c⟩ : VFile))
      else findRoot files A := by
  induction files with
  | nil =>
    simp [writeRoot, findRoot]
  | cons f fs ih =>
    rw [writeRoot_cons, findRoot_cons, findRoot_cons f fs A]
    by_cases hw : (f.trashed = false && f.name == nm) = true
    · have hparts : f.trashed = false ∧ f.name = nm := by
        simpa using hw
      rw [if_pos hw]
      by_cases hA : A = nm
      · subst hA
        have hcnew : ((⟨f.name, f.trashed, c⟩ : VFile).trashed = false &&
            (⟨f.name, f.trashed, c⟩ : VFile).name == A) = true := by
          simp [hparts.1, hparts.2]
        have hcold : (f.trashed = false && f.name == A) = true := by
          simp [hparts.1, hparts.2]
        rw [if_pos hcnew, if_pos hcold, if_pos rfl]
        rfl
      · have hne : f.name ≠ A := by
          rw [hparts.2]; intro hc; exact hA hc.symm
        have hcnew : ¬ ((⟨f.name, f.trashed, c⟩ : VFile).trashed = false &&
            (⟨f.name, f.trashed, c⟩ : VFile).name == A) = true := by
          simp [hne]
        have hcold : ¬ (f.trashed = false && f.name == A) = true := by
          simp [hne]
        rw [if_neg hcnew, if_neg hcold, ih, if_neg hA]
    · rw [if_neg hw]
      by_cases hc : (f.trashed = false && f.name == A) = true
      · have hparts : f.trashed = false ∧ f.name = A := by simpa using hc
        have hA : ¬ A = nm := by
          intro hAnm
          exact hw (by simp [hparts.1, hparts.2, hAnm])
        rw [if_pos hc, if_neg hA, if_pos hc]
      · rw [if_neg hc, ih, if_neg hc]

theorem ensureIndex_files (s : VState) : (ensureIndex s).1.files = s.files := by
  cases h : s.index <;> simp [ensureIndex, h, doRebuild]

theorem ensureIndex_spec {s : VState} (h : wfState s) :
    (ensureIndex s).1.files = s.files ∧
    (ensureIndex s).1.index = some (buildIndex s.files) ∧
    (ensureIndex s).2 = buildIndex s.files := by
  rcases h with h | h <;> simp [ensureIndex, h, doRebuild]

theorem getNoteS_files (nm : Str) (s : VState) :
    (getNoteS nm s).1.files = s.files := by
  unfold getNoteS
  have hf := ensureIndex_files s
  split
  · exact hf
  · split <;> simp [doRebuild, hf]

theorem getNoteS_spec {s : VState} (h : wfState s) (nm : Str) :
    (getNoteS nm s).1.files = s.files ∧
    (getNoteS nm s).1.index = some (buildIndex s.files) ∧
    (getNoteS nm s).2 = (match lookupNote (buildIndex s.files) nm with
      | some n => Except.ok n
      | none => Except.error Err.noteNotFound) := by
  obtain ⟨hf, hi, hv⟩ := ensureIndex_spec h
  unfold getNoteS
  rw [hv, hf]
  cases hl : lookupNote (buildIndex s.files) nm with
  | some n => exact ⟨hf, hi, rfl⟩
  | none => exact ⟨by simp [doRebuild, hf], by simp [doRebuild, hf], rfl⟩

theorem getNoteS_wf {s : VState} (h : wfState s) (nm : Str) :
    wfState (getNoteS nm s).1 := by
  obtain ⟨hf, hi, -⟩ := getNoteS_spec h nm
  right
  rw [hi, hf]

theorem getIncomingS_files (nm : Str) (s : VState) :
    (getIncomingS nm s).1.files = s.files := ensureIndex_files s

theorem getIncomingS_spec {s : VState} (h : wfState s) (nm : Str) :
    (getIncomingS nm s).1.files = s.files ∧
    (getIncomingS nm s).1.index = some (buildIndex s.files) ∧
    (getIncomingS nm s).2 = lookupIncoming (buildIndex s.files).incoming nm := by
  obtain ⟨hf, hi, hv⟩ := ensureIndex_spec h
  exact ⟨hf, hi, by simp [getIncomingS, hv]⟩

theorem checkLinkList_files (l : List (Str × Option Str)) :
    ∀ s, (checkLinkList l s).1.files = s.files := by
  induction l with
  | nil => intro s; rfl
  | cons p rest ih =>
    intro s
    obtain ⟨nm, sec⟩ := p
    unfold checkLinkList
    cases hg : getNoteS (stripWS nm) s with
    | mk s1 r =>
      have hfiles : s1.files = s.files := by
        have := getNoteS_files (stripWS nm) s
        rw [hg] at this
        exact this
      cases r with
      | error e => simp only [hg, ih, hfiles]
      | ok note =>
        cases sec with
        | none => simp only [hg, ih, hfiles]
        | some sc =>
          simp only [hg]
          split
          · rw [ih, hfiles]
          · split
            · rw [ih, hfiles]
            · exact hfiles

theorem checkLinkList_wf (l : List (Str × Option Str)) :
    ∀ s, wfState s → wfState (checkLinkList l s).1 := by
  induction l with
  | nil => intro s h; exact h
  | cons p rest ih =>
    intro s h
    obtain ⟨nm, sec⟩ := p
    rcases hg : getNoteS (stripWS nm) s with ⟨s1, r⟩
    have hwf1 : wfState s1 := by
      have := getNoteS_wf h (stripWS nm)
      rw [hg] at this
      exact this
    cases r with
    | error e =>
      simp only [checkLinkList, hg]
      exact ih s1 hwf1
    | ok note =>
      cases sec with
      | none =>
        simp only [checkLinkList, hg]
        exact ih s1 hwf1
      | some sc =>
        simp only [checkLinkList, hg]
        split
        · exact ih s1 hwf1
        · split
          · exact ih s1 hwf1
          · exact hwf1

theorem checkLinkList_err (l : List (Str × Option Str)) :
    ∀ s e, (checkLinkList l s).2 = .error e → e = .brokenLink := by
  induction l with
  | nil => intro s e h; simp [checkLinkList] at h
  | cons p rest ih =>
    intro s e h
    obtain ⟨nm, sec⟩ := p
    rcases hg : getNoteS (stripWS nm) s with ⟨s1, r⟩
    cases r with
    | error e0 =>
      simp only [checkLinkList, hg] at h
      exact ih s1 e h
    | ok note =>
      cases sec with
      | none =>
        simp only [checkLinkList, hg] at h
        exact ih s1 e h
      | some sc =>
        simp only [checkLinkList, hg] at h
        split at h
        · exact ih s1 e h
        · split at h
          · exact ih s1 e h
          · simp only at h
            cases h
            rfl

theorem validateWikilinksS_files (content : Str) (s : VState) :
    (validateWikilinksS content s).1.files = s.files :=
  checkLinkList_files _ s

theorem validateWikilinksS_err {content : Str} {s : VState} {e : Err}
    (h : (validateWikilinksS content s).2 = .error e) : e = .brokenLink :=
  checkLinkList_err _ s e h

/-! ### Lemmas: the link rewrite -/

theorem subnLinksF_nil (old new : Str) (fuel : Nat) :
    subnLinksF old new fuel [] = ([], 0) := by
  cases fuel <;> rfl

theorem subnLinksF_irrel (old new : Str) :
    ∀ f1 : Nat, ∀ s : Str, ∀ f2 : Nat, s.length ≤ f1 → s.length ≤ f2 →
      subnLinksF old new f1 s = subnLinksF old new f2 s := by
  intro f1
  induction f1 with
  | zero =>
    intro s f2 h1 h2
    have : s = [] := List.length_eq_zero.1 (Nat.le_zero.1 h1)
    subst this
    rw [subnLinksF_nil, subnLinksF_nil]
  | succ f1 ih =>
    intro s f2 h1 h2
    cases s with
    | nil => rw [subnLinksF_nil, subnLinksF_nil]
    | cons c rest =>
      cases f2 with
      | zero => simp at h2
      | succ g =>
        simp only [subnLinksF]
        cases hm : lmMatchAt old (c :: rest) with
        | some q =>
          have hlt := lmMatchAt_length hm
          simp only [List.length_cons] at hlt h1 h2
          dsimp only
          rw [ih q.2 g (by omega) (by omega)]
        | none =>
          simp only [List.length_cons] at h1 h2
          dsimp only
          rw [ih rest g (by omega) (by omega)]

theorem subnLinks_nil (old new : Str) : subnLinks old new [] = ([], 0) := rfl

theorem subnLinks_match {old : Str} (new : Str) {s suf r : Str}
    (h : lmMatchAt old s = some (suf, r)) :
    subnLinks old new s =
      ('[' :: '[' :: (new ++ suf ++ ']' :: ']' :: (subnLinks old new r).1),
        (subnLinks old new r).2 + 1) := by
  cases s with
  | nil => simp [lmMatchAt] at h
  | cons c rest =>
    have hlt := lmMatchAt_length h
    simp only [List.length_cons] at hlt
    show subnLinksF old new (c :: rest).length (c :: rest) = _
    simp only [List.length_cons, subnLinksF, h]
    rw [subnLinksF_irrel old new rest.length r r.length (by omega) (by omega)]
    exact rfl

theorem subnLinks_skip {old : Str} (new : Str) {c : Char} {rest : Str}
    (h : lmMatchAt old (c :: rest) = none) :
    subnLinks old new (c :: rest) =
      (c :: (subnLinks old new rest).1, (subnLinks old new rest).2) := by
  show subnLinksF old new (c :: rest).length (c :: rest) = _
  simp only [List.length_cons, subnLinksF, h]
  exact rfl

theorem subnLinksF_count_zero (old new : Str) :
    ∀ fuel : Nat, ∀ s : Str, (subnLinksF old new fuel s).2 = 0 →
      (subnLinksF old new fuel s).1 = s := by
  intro fuel
  induction fuel with
  | zero => intro s h; rfl
  | succ f ih =>
    intro s h
    cases s with
    | nil => rfl
    | cons c rest =>
      simp only [subnLinksF] at h ⊢
      cases hm : lmMatchAt old (c :: rest) with
      | some q =>
        rw [hm] at h
        simp at h
      | none =>
        rw [hm] at h
        dsimp only at h ⊢
        rw [ih rest h]

theorem subnLinks_count_zero {old new x : Str}
    (h : (subnLinks old new x).2 = 0) : (subnLinks old new x).1 = x :=
  subnLinksF_count_zero old new x.length x h

theorem takeWhile_append_stop {p : Char → Bool} {xs : Str} (y : Char) (ys : Str)
    (hxs : ∀ x ∈ xs, p x = true) (hy : p y = false) :
    (xs ++ y :: ys).takeWhile p = xs := by
  induction xs with
  | nil => simp [List.takeWhile, hy]
  | cons a l ih =>
    have ha : p a = true := hxs a (List.mem_cons_self a l)
    have ih' := ih (fun x hx => hxs x (List.mem_cons_of_mem a hx))
    simp only [List.cons_append, List.takeWhile_cons, ha, if_true, ih']

/-- The rewrite pattern matches at the head of
`[[<old><suffix>]] ++ rest` and captures the suffix: either the empty
suffix or a pipe/hash-led run of non-bracket characters. -/
theorem lmMatchAt_occurrence (old : Str) (suf rest : Str)
    (hsuf : suf = [] ∨ (∃ c suf', suf = c :: suf' ∧ (c = '|' ∨ c = '#') ∧
      ∀ x ∈ suf', x ≠ ']')) :
    lmMatchAt old ('[' :: '[' :: (old ++ suf ++ ']' :: ']' :: rest)) =
      some (suf, rest) := by
  have hpre : old.isPrefixOf (old ++ suf ++ ']' :: ']' :: rest) = true := by
    rw [List.append_assoc]
    exact List.isPrefixOf_iff_prefix.2 ⟨suf ++ ']' :: ']' :: rest, rfl⟩
  have hdrop : (old ++ suf ++ ']' :: ']' :: rest).drop old.length =
      suf ++ ']' :: ']' :: rest := by
    rw [List.append_assoc]
    exact List.drop_left old (suf ++ ']' :: ']' :: rest)
  rcases hsuf with hsuf | ⟨c, suf', hseq, hc, hsuf'⟩
  · subst hsuf
    simp only [lmMatchAt, hpre, if_pos, hdrop, List.nil_append]
  · subst hseq
    have hcne : c ≠ ']' := by
      rcases hc with hc | hc <;> (subst hc; decide)
    have htake : (suf' ++ ']' :: ']' :: rest).takeWhile linkSufChar = suf' := by
      apply takeWhile_append_stop
      · intro x hx
        simp [linkSufChar, hsuf' x hx]
      · simp [linkSufChar]
    have hdrop2 : (suf' ++ ']' :: ']' :: rest).drop suf'.length = ']' :: ']' :: rest :=
      List.drop_left suf' (']' :: ']' :: rest)
    have hcb : (c = '|' || c = '#') = true := by
      rcases hc with hc | hc <;> simp [hc]
    simp only [lmMatchAt, hpre, if_pos, hdrop, List.cons_append]
    split
    · rename_i r0 heq
      exact absurd (List.cons.inj heq).1 hcne
    · rename_i cc uu hno heq
      obtain ⟨hc1, hu⟩ := List.cons.inj heq
      subst hc1
      subst hu
      rw [if_pos hcb, htake, hdrop2]
      rfl
    · rename_i heq
      exact absurd heq (by simp)

theorem updateLinksFile_spec {s : VState} {fname : Str} {f : VFile}
    (hf : findRoot s.files fname = some f) (old new : Str) :
    (updateLinksFile fname old new s).2 = .ok () ∧
    (updateLinksFile fname old new s).1.index = s.index ∧
    (updateLinksFile fname old new s).1.files.map fileKey = s.files.map fileKey ∧
    ∀ A, findRoot (updateLinksFile fname old new s).1.files A =
      if A = fname then
        (findRoot s.files A).map
          (fun g => (⟨g.name, g.trashed, applyRw old new g.raw⟩ : VFile))
      else findRoot s.files A := by
  unfold updateLinksFile
  rw [hf]
  dsimp only
  by_cases hz : (subnLinks old new f.raw).2 = 0
  · rw [if_pos hz]
    refine ⟨rfl, rfl, rfl, ?_⟩
    intro A
    by_cases hA : A = fname
    · subst hA
      rw [if_pos rfl, hf]
      have hz' : applyRw old new f.raw = f.raw := subnLinks_count_zero hz
      show some f = some (⟨f.name, f.trashed, applyRw old new f.raw⟩ : VFile)
      rw [hz']
    · rw [if_neg hA]
  · rw [if_neg hz]
    refine ⟨rfl, rfl, ?_, ?_⟩
    · exact writeRoot_key s.files fname _
    · intro A
      rw [findRoot_writeRoot]
      by_cases hA : A = fname
      · subst hA
        rw [if_pos rfl, if_pos rfl, hf]
        rfl
      · rw [if_neg hA, if_neg hA]

theorem getNoteS_hit {s : VState} {idx : IndexM} {nm : Str} {n : NoteM}
    (hidx : s.index = some idx) (hn : lookupNote idx nm = some n) :
    getNoteS nm s = (s, .ok n) := by
  unfold getNoteS ensureIndex
  rw [hidx]
  simp [hn]

theorem rewriteRefs_spec (old new : Str) (files0 : List VFile) (refs : List Str) :
    ∀ s : VState, s.files.map fileKey = files0.map fileKey →
      s.index = some (buildIndex files0) →
      (∀ ref ∈ refs, (lookupNote (buildIndex files0) ref).isSome ∧
        (findRoot files0 ref).isSome) →
      (rewriteRefs old new refs s).2 = .ok () ∧
      (rewriteRefs old new refs s).1.index = some (buildIndex files0) ∧
      (rewriteRefs old new refs s).1.files.map fileKey = files0.map fileKey ∧
      ∀ A, findRoot (rewriteRefs old new refs s).1.files A =
        (findRoot s.files A).map
          (fun g => (⟨g.name, g.trashed, iterRw old new (countOcc A refs) g.raw⟩ : VFile)) := by
  induction refs with
  | nil =>
    intro s hkey hidx _
    refine ⟨rfl, hidx, hkey, ?_⟩
    intro A
    show findRoot s.files A = _
    cases hr : findRoot s.files A with
    | none => rfl
    | some g => cases g; rfl
  | cons ref rest ih =>
    intro s hkey hidx hrefs
    obtain ⟨hlook, hroot⟩ := hrefs ref (List.mem_cons_self ref rest)
    obtain ⟨n, hn⟩ := Option.isSome_iff_exists.1 hlook
    have hname : n.name = ref := lookupNote_name hn
    have hrootS : (findRoot s.files ref).isSome := by
      rw [findRoot_isSome_key hkey ref]
      exact hroot
    obtain ⟨f, hf⟩ := Option.isSome_iff_exists.1 hrootS
    have hfn : findRoot s.files n.name = some f := by rw [hname]; exact hf
    obtain ⟨hok, hidx', hkey', hfind⟩ := updateLinksFile_spec hfn old new
    rcases hu : updateLinksFile n.name old new s with ⟨s', r'⟩
    rw [hu] at hok hidx' hkey' hfind
    simp only at hok hidx' hkey' hfind
    subst hok
    rw [hname] at hfind
    have hstep : rewriteRefs old new (ref :: rest) s = rewriteRefs old new rest s' := by
      simp only [rewriteRefs, getNoteS_hit hidx hn, hu]
    obtain ⟨hok2, hidx2, hkey2, hfind2⟩ := ih s'
      (by rw [hkey']; exact hkey) (by rw [hidx']; exact hidx)
      (fun q hq => hrefs q (List.mem_cons_of_mem ref hq))
    refine ⟨by rw [hstep]; exact hok2, by rw [hstep]; exact hidx2,
      by rw [hstep]; exact hkey2, ?_⟩
    intro A
    rw [hstep, hfind2 A, hfind A]
    by_cases hA : A = ref
    · subst hA
      rw [if_pos rfl]
      have hcnt : countOcc A (A :: rest) = 1 + countOcc A rest := by
        show (if A = A then 1 else 0) + countOcc A rest = 1 + countOcc A rest
        rw [if_pos rfl]
      rw [hcnt]
      cases hr : findRoot s.files A with
      | none => rfl
      | some g =>
        have hit : iterRw old new (1 + countOcc A rest) g.raw =
            iterRw old new (countOcc A rest) (applyRw old new g.raw) := by
          rw [Nat.add_comm]
          rfl
        dsimp only [Option.map]
        rw [hit]
    · rw [if_neg hA]
      have hcnt : countOcc A (ref :: rest) = countOcc A rest := by
        show (if ref = A then 1 else 0) + countOcc A rest = countOcc A rest
        rw [if_neg (fun h => hA h.symm), Nat.zero_add]
      rw [hcnt]

/-! ### Lemmas: trash, and full runs of delete -/

theorem trashRoot_root_gone {files : List VFile} {nm : Str} :
    ∀ f ∈ trashRoot files nm, f.name = nm → f.trashed = true := by
  intro f hf hname
  unfold trashRoot at hf
  obtain ⟨g, hg, hmap⟩ := List.mem_map.1 hf
  by_cases hc : (g.trashed = false && g.name == nm) = true
  · rw [if_pos hc] at hmap
    rw [← hmap]
  · rw [if_neg hc] at hmap
    subst hmap
    simp only [Bool.and_eq_true, decide_eq_true_eq, beq_iff_eq, not_and] at hc
    cases htr : g.trashed with
    | true => rfl
    | false => exact absurd hname (hc htr)

theorem trashRoot_mem_trashed {files : List VFile} {nm : Str} {f : VFile}
    (h : findRoot files nm = some f) :
    ∃ g ∈ trashRoot files nm, g.name = nm ∧ g.trashed = true := by
  have hf : f ∈ files := List.mem_of_find?_eq_some h
  have hp : f.trashed = false ∧ f.name = nm := by
    have := List.find?_some h
    simpa using this
  refine ⟨⟨f.name, true, f.raw⟩, ?_, hp.2, rfl⟩
  unfold trashRoot
  apply List.mem_map.2
  refine ⟨f, ?_, ?_⟩
  · exact List.mem_filter.2 ⟨hf, by simp [hp.1]⟩
  · rw [if_pos (by simp [hp.1, hp.2])]

theorem findRoot_trashRoot_ne {nm A : Str} (hA : A ≠ nm) (files : List VFile) :
    findRoot (trashRoot files nm) A = findRoot files A := by
  induction files with
  | nil => rfl
  | cons f fs ih =>
    by_cases hdrop : (f.trashed = true && f.name == nm) = true
    · have hparts : f.trashed = true ∧ f.name = nm := by simpa using hdrop
      have hcons : trashRoot (f :: fs) nm = trashRoot fs nm := by
        unfold trashRoot
        rw [List.filter_cons, if_neg (by simp [hparts.1, hparts.2])]
      rw [hcons, ih, findRoot_cons,
        if_neg (by simp [hparts.1])]
    · have hkeep : (f.trashed = false ∨ ¬ f.name = nm) := by
        by_cases h1 : f.name = nm
        · left
          cases htr : f.trashed with
          | false => rfl
          | true => rw [htr] at hdrop; simp [h1] at hdrop
        · right; exact h1
      have hcons : trashRoot (f :: fs) nm =
          (if f.trashed = false && f.name == nm then (⟨f.name, true, f.raw⟩ : VFile) else f)
            :: trashRoot fs nm := by
        unfold trashRoot
        rw [List.filter_cons, if_pos (by rcases hkeep with h1 | h1 <;> simp [h1])]
        rfl
      rw [hcons]
      by_cases hw : (f.trashed = false && f.name == nm) = true
      · have hparts : f.trashed = false ∧ f.name = nm := by simpa using hw
        rw [if_pos hw, findRoot_cons, findRoot_cons]
        have h1 : ¬ ((⟨f.name, true, f.raw⟩ : VFile).trashed = false &&
            (⟨f.name, true, f.raw⟩ : VFile).name == A) = true := by simp
        have h2 : ¬ (f.trashed = false && f.name == A) = true := by
          simp only [Bool.and_eq_true, decide_eq_true_eq, beq_iff_eq, not_and]
          intro _ hc
          exact hA (hc ▸ hparts.2)
        rw [if_neg h1, if_neg h2, ih]
      · rw [if_neg hw, findRoot_cons, findRoot_cons]
        by_cases hc : (f.trashed = false && f.name == A) = true
        · rw [if_pos hc, if_pos hc]
        · rw [if_neg hc, if_neg hc, ih]

theorem lookupNote_isSome_of_exists {idx : IndexM} {src : Str}
    (h : ∃ n ∈ idx.notes, n.name = src) : (lookupNote idx src).isSome := by
  obtain ⟨n, hn, hname⟩ := h
  exact List.find?_isSome.2 ⟨n, hn, by simp [hname]⟩

theorem findRoot_isSome_of_exists {files : List VFile} {nm : Str}
    (h : ∃ f ∈ files, f.trashed = false ∧ f.name = nm) : (findRoot files nm).isSome := by
  obtain ⟨f, hf, h1, h2⟩ := h
  exact List.find?_isSome.2 ⟨f, hf, by simp [h1, h2]⟩

theorem note_root_isSome {files : List VFile} {n : NoteM}
    (h : n ∈ (buildIndex files).notes) : (findRoot files n.name).isSome := by
  obtain ⟨f, hf, htr, hname⟩ := buildIndex_notes_from_files h
  exact findRoot_isSome_of_exists ⟨f, hf, htr, hname⟩

theorem incoming_src_exists {files : List VFile} {T src : Str}
    (h : src ∈ lookupIncoming (buildIndex files).incoming T) :
    ∃ n ∈ (buildIndex files).notes, n.name = src := by
  rw [lookupIncoming_buildIndex] at h
  obtain ⟨n, hn, hname, -⟩ := (mem_incomingSpec T src _).1 h
  exact ⟨n, hn, hname⟩

theorem incoming_refs_resolve (files : List VFile) (T : Str) :
    ∀ ref ∈ lookupIncoming (buildIndex files).incoming T,
      (lookupNote (buildIndex files) ref).isSome ∧ (findRoot files ref).isSome := by
  intro ref href
  obtain ⟨n, hn, hname⟩ := incoming_src_exists href
  constructor
  · exact lookupNote_isSome_of_exists ⟨n, hn, hname⟩
  · rw [← hname]
    exact note_root_isSome hn

theorem getNoteS_mkVault_hit {files : List VFile} {name : Str} {note : NoteM}
    (hl : lookupNote (buildIndex files) name = some note) :
    getNoteS name (mkVault files) = (doRebuild (mkVault files), .ok note) := by
  unfold getNoteS
  rw [show (ensureIndex (mkVault files)).2 = buildIndex files from rfl, hl]
  rfl

theorem getNoteS_mkVault_miss {files : List VFile} {name : Str}
    (hl : lookupNote (buildIndex files) name = none) :
    getNoteS name (mkVault files) =
      (doRebuild (doRebuild (mkVault files)), .error .noteNotFound) := by
  unfold getNoteS
  rw [show (ensureIndex (mkVault files)).2 = buildIndex files from rfl, hl,
    show (buildIndex (ensureIndex (mkVault files)).1.files) = buildIndex files from rfl, hl]
  rfl

theorem opDelete_run (files : List VFile) (name : Str) (note : NoteM)
    (hl : lookupNote (buildIndex files) name = some note) :
    (opDelete name false (mkVault files)).2 =
      .ok ⟨name, lookupIncoming (buildIndex files).incoming name⟩ ∧
    (∀ f ∈ (opDelete name false (mkVault files)).1.files,
      f.name = name → f.trashed = true) ∧
    (∃ f ∈ (opDelete name false (mkVault files)).1.files,
      f.name = name ∧ f.trashed = true) ∧
    ∀ A, A ≠ name →
      findRoot (opDelete name false (mkVault files)).1.files A =
        (findRoot files A).map (fun g => (⟨g.name, g.trashed,
          iterRw name (deletedName name)
            (countOcc A (lookupIncoming (buildIndex files).incoming name)) g.raw⟩ : VFile)) := by
  have hname : note.name = name := lookupNote_name hl
  have hg := getNoteS_mkVault_hit hl
  have hq : getIncomingS name (doRebuild (mkVault files)) =
      (doRebuild (mkVault files), lookupIncoming (buildIndex files).incoming name) := rfl
  obtain ⟨hok3, hidx3, hkey3, hfind3⟩ :=
    rewriteRefs_spec name (deletedName name) files
      (lookupIncoming (buildIndex files).incoming name)
      (doRebuild (mkVault files)) rfl rfl (incoming_refs_resolve files name)
  rcases hw : rewriteRefs name (deletedName name)
      (lookupIncoming (buildIndex files).incoming name) (doRebuild (mkVault files))
    with ⟨s3, r3⟩
  rw [hw] at hok3 hidx3 hkey3 hfind3
  simp only at hok3 hidx3 hkey3 hfind3
  subst hok3
  have hred : opDelete name false (mkVault files) =
      (doRebuild ⟨trashRoot s3.files note.name, s3.index, s3.rebuilds⟩,
        .ok ⟨name, lookupIncoming (buildIndex files).incoming name⟩) := by
    simp only [opDelete, hg, hq, hw]
    rfl
  rw [hred]
  have hbase : ∀ A, findRoot s3.files A =
      (findRoot files A).map (fun g => (⟨g.name, g.trashed,
        iterRw name (deletedName name)
          (countOcc A (lookupIncoming (buildIndex files).incoming name)) g.raw⟩ : VFile)) := by
    intro A
    have := hfind3 A
    rwa [show (doRebuild (mkVault files)).files = files from rfl] at this
  refine ⟨rfl, ?_, ?_, ?_⟩
  · intro f hf hfname
    exact trashRoot_root_gone f (hname ▸ hf) hfname
  · have hroot : (findRoot files name).isSome := by
      rw [← hname]
      exact note_root_isSome (lookupNote_mem hl)
    have hroot3 : (findRoot s3.files name).isSome := by
      rw [hbase name]
      cases hr : findRoot files name with
      | none => rw [hr] at hroot; simp at hroot
      | some g => rfl
    obtain ⟨f3, hf3⟩ := Option.isSome_iff_exists.1 hroot3
    obtain ⟨g, hg3, hg4, hg5⟩ := trashRoot_mem_trashed hf3
    exact ⟨g, by rw [hname]; exact hg3, hg4, hg5⟩
  · intro A hA
    show findRoot (trashRoot s3.files note.name) A = _
    rw [hname, findRoot_trashRoot_ne hA, hbase A]

theorem opDelete_ok_result {files : List VFile} {name : Str} {dr : Bool}
    {s' : VState} {r : DeleteRes}
    (h : opDelete name dr (mkVault files) = (s', .ok r)) :
    r = ⟨name, lookupIncoming (buildIndex files).incoming name⟩ := by
  cases hl : lookupNote (buildIndex files) name with
  | none =>
    rw [opDelete, getNoteS_mkVault_miss hl] at h
    simp at h
  | some note =>
    rw [opDelete, getNoteS_mkVault_hit hl] at h
    cases dr with
    | true =>
      simp only [if_true] at h
      have := congrArg Prod.snd h
      simp only at this
      cases this
      rfl
    | false =>
      simp only [Bool.false_eq_true, if_false] at h
      rcases hw : rewriteRefs name (deletedName name)
          (getIncomingS name (doRebuild (mkVault files))).2
          (getIncomingS name (doRebuild (mkVault files))).1 with ⟨s3, r3⟩
      rw [hw] at h
      cases r3 with
      | error e => simp at h
      | ok u =>
        have := congrArg Prod.snd h
        simp only at this
        cases this
        rfl

theorem opDelete_dry_files (files : List VFile) (name : Str) :
    (opDelete name true (mkVault files)).1.files = files := by
  rcases hg : getNoteS name (mkVault files) with ⟨s1, rg⟩
  have hfiles : s1.files = files := by
    have := getNoteS_files name (mkVault files)
    rw [hg] at this
    exact this
  cases rg with
  | error e =>
    simp only [opDelete, hg]
    exact hfiles
  | ok note =>
    simp only [opDelete, hg, if_true]
    rw [getIncomingS_files name s1]
    exact hfiles

theorem opRename_dry_files (files : List VFile) (o n : Str) :
    (opRename o n true (mkVault files)).1.files = files := by
  cases hv : validateNameErr n with
  | some e =>
    simp only [opRename, hv]
    rfl
  | none =>
    rcases hg : getNoteS o (mkVault files) with ⟨s1, rg⟩
    have hfiles : s1.files = files := by
      have := getNoteS_files o (mkVault files)
      rw [hg] at this
      exact this
    cases rg with
    | error e =>
      simp only [opRename, hv, hg]
      exact hfiles
    | ok note =>
      simp only [opRename, hv, hg]
      split
      · exact hfiles
      · simp only [if_true]
        rw [getIncomingS_files o s1]
        exact hfiles

theorem opRename_ok_result {files : List VFile} {o n : Str} {dr : Bool}
    {s' : VState} {r : RenameRes}
    (h : opRename o n dr (mkVault files) = (s', .ok r)) :
    r = ⟨o, n, lookupIncoming (buildIndex files).incoming o⟩ := by
  cases hv : validateNameErr n with
  | some e => rw [opRename, hv] at h; simp at h
  | none =>
    cases hl : lookupNote (buildIndex files) o with
    | none =>
      rw [opRename, hv, getNoteS_mkVault_miss hl] at h
      simp at h
    | some note =>
      rw [opRename, hv, getNoteS_mkVault_hit hl] at h
      dsimp only at h
      by_cases hex : (findRoot (doRebuild (mkVault files)).files n).isSome
      · rw [if_pos hex] at h
        simp at h
      · rw [if_neg hex] at h
        cases dr with
        | true =>
          simp only [if_true] at h
          have := congrArg Prod.snd h
          simp only at this
          cases this
          rfl
        | false =>
          simp only [Bool.false_eq_true, if_false] at h
          rcases hw : rewriteRefs o n
              (getIncomingS o (doRebuild (mkVault files))).2
              (getIncomingS o (doRebuild (mkVault files))).1 with ⟨s3, r3⟩
          rw [hw] at h
          cases r3 with
          | error e => simp at h
          | ok u =>
            have := congrArg Prod.snd h
            simp only at this
            cases this
            rfl

/-- C1 (corrected): the claim's uniqueness is false on the code — a note
whose body links twice to the same target appears twice in that target's
incoming-link list. -/
theorem C1_cex :
    (getIncomingS "T".data (mkVault demoDupLinks)).2 = ["A".data, "A".data] ∧
    countOcc "A".data (getIncomingS "T".data (mkVault demoDupLinks)).2 = 2 ∧
    "T".data ∈ (match lookupNote (buildIndex demoDupLinks) "A".data with
      | some m => m.outgoing
      | none => []) := by
  refine ⟨by decide, by decide, by decide⟩

/-- C1 (amended): `getIncomingLinks(T)` contains the name of each note once
per occurrence of `T` in that note's outgoing links (duplicates preserved,
not unique), and as a set it equals exactly the names of notes whose
outgoing links contain `T` (targets need not be existing notes). -/
theorem C1_incoming_links (files : List VFile) (T src : Str) :
    (src ∈ (getIncomingS T (mkVault files)).2 ↔
      ∃ n, n ∈ (buildIndex files).notes ∧ n.name = src ∧ T ∈ n.outgoing) ∧
    countOcc src (getIncomingS T (mkVault files)).2 =
      (match lookupNote (buildIndex files) src with
        | some n => countOcc T n.outgoing
        | none => 0) := by
  have h1 : (getIncomingS T (mkVault files)).2 =
      lookupIncoming (buildIndex files).incoming T := rfl
  rw [h1, lookupIncoming_buildIndex]
  exact ⟨mem_incomingSpec T src _,
    countOcc_incomingSpec T src _ (buildIndex_names_nodup files)⟩

/-- C2 (corrected): the claim is false as stated — a referring note whose
body holds only an aliased wikilink `[[B|Alias]]` is not recorded in `B`'s
incoming links (the index regex skips suffixed links), so `delete(B)`
leaves it byte-identical and reports no updated files. -/
theorem C2_cex :
    (opDelete "B".data false (mkVault demoAliasOnly)).2 =
      .ok ⟨"B".data, ([] : List Str)⟩ ∧
    findRoot (opDelete "B".data false (mkVault demoAliasOnly)).1.files "A".data =
      some ⟨"A".data, false, "x [[B|Alias]] y".data⟩ ∧
    strContains "[[B|Alias]]".data "x [[B|Alias]] y".data = true := by
  refine ⟨by decide, by decide, by decide⟩

/-- C2 (amended): for an existing note `B`, `delete(B, dryRun=false)` moves
`B`'s file into `.trash/`; every note recorded (once) in `B`'s incoming
links — which requires a plain suffix-free `[[B]]` link — has its file
rewritten by one pass of the link-rewrite substitution, and that
substitution rewrites each occurrence `[[B|...]]`/`[[B#...]]`/`[[B]]` to
`[[B (deleted)...]]` with the captured alias/section suffix preserved
verbatim, leaving non-matching positions unchanged. -/
theorem C2_delete_rewrites (files : List VFile) (B : Str) (note : NoteM)
    (hl : lookupNote (buildIndex files) B = some note) :
    (∃ f ∈ (opDelete B false (mkVault files)).1.files,
      f.name = B ∧ f.trashed = true) ∧
    (∀ f ∈ (opDelete B false (mkVault files)).1.files,
      f.name = B → f.trashed = true) ∧
    (∀ A, A ≠ B →
      countOcc A (lookupIncoming (buildIndex files).incoming B) = 1 →
      findRoot (opDelete B false (mkVault files)).1.files A =
        (findRoot files A).map (fun g => (⟨g.name, g.trashed,
          (subnLinks B (deletedName B) g.raw).1⟩ : VFile))) ∧
    (∀ B' suf rest,
      (suf = [] ∨ ∃ c suf', suf = c :: suf' ∧ (c = '|' ∨ c = '#') ∧
        ∀ x ∈ suf', x ≠ ']') →
      subnLinks B B' ('[' :: '[' :: (B ++ suf ++ ']' :: ']' :: rest)) =
        ('[' :: '[' :: (B' ++ suf ++ ']' :: ']' :: (subnLinks B B' rest).1),
          (subnLinks B B' rest).2 + 1)) ∧
    (∀ B' c rest, lmMatchAt B (c :: rest) = none →
      subnLinks B B' (c :: rest) =
        (c :: (subnLinks B B' rest).1, (subnLinks B B' rest).2)) := by
  obtain ⟨hres, hgone, hex, hfind⟩ := opDelete_run files B note hl
  refine ⟨hex, hgone, ?_, ?_, ?_⟩
  · intro A hA hcnt
    have hthis := hfind A hA
    rw [hcnt] at hthis
    exact hthis
  · intro B' suf rest hsuf
    exact subnLinks_match B' (lmMatchAt_occurrence B suf rest hsuf)
  · intro B' c rest hnone
    exact subnLinks_skip B' hnone

theorem C2_witness :
    (∃ f ∈ (opDelete "B".data false (mkVault demoPlainAlias)).1.files,
      f.name = "B".data ∧ f.trashed = true) ∧
    findRoot (opDelete "B".data false (mkVault demoPlainAlias)).1.files "A".data =
      (findRoot demoPlainAlias "A".data).map (fun g => (⟨g.name, g.trashed,
        (subnLinks "B".data (deletedName "B".data) g.raw).1⟩ : VFile)) ∧
    subnLinks "B".data "Q".data
        ('[' :: '[' :: ("B".data ++ ('|' :: 'A' :: 'l' :: []) ++ ']' :: ']' :: " rest".data)) =
      ('[' :: '[' :: ("Q".data ++ ('|' :: 'A' :: 'l' :: []) ++ ']' :: ']' ::
        (subnLinks "B".data "Q".data " rest".data).1),
        (subnLinks "B".data "Q".data " rest".data).2 + 1) := by
  have hl : lookupNote (buildIndex demoPlainAlias) "B".data =
      some ⟨"B".data, none, "hi".data, []⟩ := by decide
  obtain ⟨h1, h2, h3, h4, h5⟩ := C2_delete_rewrites demoPlainAlias "B".data _ hl
  refine ⟨h1, ?_, ?_⟩
  · exact h3 "A".data (by decide) (by decide)
  · exact h4 "Q".data ('|' :: 'A' :: 'l' :: []) " rest".data
      (Or.inr ⟨'|', ('A' :: 'l' :: []), rfl, Or.inl rfl, by decide⟩)

/-- C3 (confirmed): dry-run delete and rename leave every file's content,
name and location unchanged, and return the same `filesUpdated` list as
the non-dry run — the incoming-links list precomputed from the index,
independent of whether the rewrite regex would match anything. -/
theorem C3_dry_run_frame (files : List VFile) (dname oldN newN : Str) :
    ((opDelete dname true (mkVault files)).1.files = files ∧
      ∀ s' r, opDelete dname true (mkVault files) = (s', .ok r) →
        r.filesUpdated = lookupIncoming (buildIndex files).incoming dname ∧
        ∀ s'' r'', opDelete dname false (mkVault files) = (s'', .ok r'') →
          r''.filesUpdated = r.filesUpdated) ∧
    ((opRename oldN newN true (mkVault files)).1.files = files ∧
      ∀ s' r, opRename oldN newN true (mkVault files) = (s', .ok r) →
        r.filesUpdated = lookupIncoming (buildIndex files).incoming oldN ∧
        ∀ s'' r'', opRename oldN newN false (mkVault files) = (s'', .ok r'') →
          r''.filesUpdated = r.filesUpdated) := by
  constructor
  · refine ⟨opDelete_dry_files files dname, ?_⟩
    intro s' r h
    have hr := opDelete_ok_result h
    subst hr
    refine ⟨rfl, ?_⟩
    intro s'' r'' h''
    have hr'' := opDelete_ok_result h''
    subst hr''
    rfl
  · refine ⟨opRename_dry_files files oldN newN, ?_⟩
    intro s' r h
    have hr := opRename_ok_result h
    subst hr
    refine ⟨rfl, ?_⟩
    intro s'' r'' h''
    have hr'' := opRename_ok_result h''
    subst hr''
    rfl

theorem C3_witness :
    (opDelete "B".data true (mkVault demoPlain)).1.files = demoPlain ∧
    (DeleteRes.mk "B".data ["A".data]).filesUpdated =
      lookupIncoming (buildIndex demoPlain).incoming "B".data ∧
    (RenameRes.mk "B".data "B2".data ["A".data]).filesUpdated =
      lookupIncoming (buildIndex demoPlain).incoming "B".data := by
  refine ⟨(C3_dry_run_frame demoPlain "B".data "B".data "B2".data).1.1, ?_, ?_⟩
  · have h2 : (opDelete "B".data true (mkVault demoPlain)).2 =
        .ok ⟨"B".data, ["A".data]⟩ := by decide
    have hd : opDelete "B".data true (mkVault demoPlain) =
        ((opDelete "B".data true (mkVault demoPlain)).1,
          .ok ⟨"B".data, ["A".data]⟩) := by
      rw [← h2]
    exact ((C3_dry_run_frame demoPlain "B".data "B".data "B2".data).1.2 _ _ hd).1
  · have h2 : (opRename "B".data "B2".data true (mkVault demoPlain)).2 =
        .ok ⟨"B".data, "B2".data, ["A".data]⟩ := by decide
    have hd : opRename "B".data "B2".data true (mkVault demoPlain) =
        ((opRename "B".data "B2".data true (mkVault demoPlain)).1,
          .ok ⟨"B".data, "B2".data, ["A".data]⟩) := by
      rw [← h2]
    exact ((C3_dry_run_frame demoPlain "B".data "B".data "B2".data).2.2 _ _ hd).1

/-! ### Lemmas: fence scanning -/

theorem splitNl_no_newline {l : Str} (h : '\n' ∉ l) : splitNl l = [l] := by
  induction l with
  | nil => rfl
  | cons c rest ih =>
    have hc : ¬ c = '\n' := fun hc => h (hc ▸ List.mem_cons_self c rest)
    have hr : '\n' ∉ rest := fun hr => h (List.mem_cons_of_mem c hr)
    simp only [splitNl, if_neg hc, ih hr]

theorem splitNl_append_newline {l : Str} (rest : Str) (h : '\n' ∉ l) :
    splitNl (l ++ '\n' :: rest) = l :: splitNl rest := by
  induction l with
  | nil => simp [splitNl]
  | cons c cs ih =>
    have hc : ¬ c = '\n' := fun hc => h (hc ▸ List.mem_cons_self c cs)
    have hr : '\n' ∉ cs := fun hr => h (List.mem_cons_of_mem c hr)
    simp only [List.cons_append, splitNl, if_neg hc]
    rw [show splitNl (cs.append ('\n' :: rest)) = cs :: splitNl rest from ih hr]

theorem splitNl_joinNl : ∀ ls : List Str, (∀ l ∈ ls, '\n' ∉ l) → ls ≠ [] →
    splitNl (joinNl ls) = ls := by
  intro ls
  induction ls with
  | nil => intro _ h; exact absurd rfl h
  | cons l ls' ih =>
    intro hnl _
    cases ls' with
    | nil =>
      show splitNl (joinNl [l]) = [l]
      exact splitNl_no_newline (hnl l (List.mem_cons_self l []))
    | cons x xs =>
      have hjoin : joinNl (l :: x :: xs) = l ++ '\n' :: joinNl (x :: xs) := rfl
      rw [hjoin, splitNl_append_newline _ (hnl l (List.mem_cons_self l _)),
        ih (fun m hm => hnl m (List.mem_cons_of_mem l hm)) (by simp)]

theorem fenceStep_inactive {st : FenceSt} {t : Nat} (h1 : st.inCode = true)
    (h2 : st.cur = t) {l : Str} (hl : fenceLen l < t) (n : Nat) :
    fenceStep n l st = st := by
  unfold fenceStep
  by_cases hb : 3 ≤ fenceLen l
  · rw [if_pos hb, if_neg (by rw [h1]; simp), if_neg (by rw [h2]; omega)]
  · rw [if_neg hb]

theorem fenceScanAux_inactive {t : Nat} : ∀ (interior : List Str) (n : Nat)
    (st : FenceSt), st.inCode = true → st.cur = t →
    (∀ l ∈ interior, fenceLen l < t) → fenceScanAux n interior st = st := by
  intro interior
  induction interior with
  | nil => intro n st _ _ _; rfl
  | cons l ls ih =>
    intro n st h1 h2 hl
    show fenceScanAux (n + 1) ls (fenceStep n l st) = st
    rw [fenceStep_inactive h1 h2 (hl l (List.mem_cons_self l ls)) n]
    exact ih (n + 1) st h1 h2 (fun m hm => hl m (List.mem_cons_of_mem l hm))

theorem fenceScanAux_append : ∀ (xs : List Str) (n : Nat) (ys : List Str)
    (st : FenceSt), fenceScanAux n (xs ++ ys) st =
      fenceScanAux (n + xs.length) ys (fenceScanAux n xs st) := by
  intro xs
  induction xs with
  | nil => intro n ys st; simp [fenceScanAux]
  | cons x xs' ih =>
    intro n ys st
    show fenceScanAux (n + 1) (xs' ++ ys) (fenceStep n x st) = _
    rw [ih (n + 1) ys (fenceStep n x st)]
    have : n + 1 + xs'.length = n + (x :: xs').length := by simp; omega
    rw [this]
    rfl

theorem headStep_inactive {st : HeadSt} {t : Nat} (h1 : st.inCode = true)
    (h2 : st.cur = t) {l : Str} (hl : fenceLen l < t) :
    headStep st l = st := by
  unfold headStep
  by_cases hb : 3 ≤ fenceLen l
  · rw [if_pos hb, if_neg (by rw [h1]; simp), if_neg (by rw [h2]; omega)]
  · rw [if_neg hb, if_pos h1]

theorem foldl_headStep_inactive {t : Nat} : ∀ (interior : List Str)
    (st : HeadSt), st.inCode = true → st.cur = t →
    (∀ l ∈ interior, fenceLen l < t) → interior.foldl headStep st = st := by
  intro interior
  induction interior with
  | nil => intro st _ _ _; rfl
  | cons l ls ih =>
    intro st h1 h2 hl
    show (ls.foldl headStep (headStep st l)) = st
    rw [headStep_inactive h1 h2 (hl l (List.mem_cons_self l ls))]
    exact ih st h1 h2 (fun m hm => hl m (List.mem_cons_of_mem l hm))

/-- C4 (confirmed): a body that is one outer fence opened with 4+
backticks, whose interior lines (in particular 3-backtick inner fences)
all have shorter backtick runs, closed by a line with at least as many
backticks as the opener, yields no unclosed-code-block warning, and
`getHeadings` extracts no heading from it at all. -/
theorem C4_fence_nesting (t : Nat) (openL closeL : Str) (interior : List Str)
    (ht : 4 ≤ t) (hopen : fenceLen openL = t)
    (hint : ∀ l ∈ interior, fenceLen l < t)
    (hclose : t ≤ fenceLen closeL)
    (hnl : ∀ l ∈ openL :: interior ++ [closeL], '\n' ∉ l) :
    (parseCodeBlocks (openL :: interior ++ [closeL])).2 = [] ∧
    getHeadingsOf (joinNl (openL :: interior ++ [closeL])) = [] ∧
    (validateW (joinNl (openL :: interior ++ [closeL]))).filter
      (fun w => w.rule == WRule.unclosedCodeBlock) = [] := by
  have hsplit : splitNl (joinNl (openL :: interior ++ [closeL])) =
      openL :: interior ++ [closeL] :=
    splitNl_joinNl _ hnl (by simp)
  have hstep1 : fenceStep 1 openL ⟨[], [], false, 0⟩ =
      ⟨[], [(1, t)], true, t⟩ := by
    unfold fenceStep
    rw [hopen, if_pos (by omega), if_pos rfl]
    rfl
  have hscan : fenceScanAux 1 (openL :: interior ++ [closeL]) ⟨[], [], false, 0⟩ =
      ⟨[(1, 1 + (1 + interior.length))], [], false, 0⟩ := by
    show fenceScanAux 2 (interior ++ [closeL]) (fenceStep 1 openL ⟨[], [], false, 0⟩) = _
    rw [hstep1, fenceScanAux_append interior 2 [closeL],
      fenceScanAux_inactive interior 2 _ rfl rfl hint]
    show fenceStep (2 + interior.length) closeL ⟨[], [(1, t)], true, t⟩ = _
    unfold fenceStep
    rw [if_pos (by omega : 3 ≤ fenceLen closeL),
      if_neg (by simp), if_pos (by show t ≤ fenceLen closeL; exact hclose)]
    show (⟨[] ++ [(1, 2 + interior.length)], List.dropLast [(1, t)], false, 0⟩ : FenceSt) = _
    simp
    omega
  have hparse : parseCodeBlocks (openL :: interior ++ [closeL]) =
      ([(1, 1 + (1 + interior.length))], []) := by
    unfold parseCodeBlocks
    rw [hscan]
    rfl
  have hheads : getHeadingsOf (joinNl (openL :: interior ++ [closeL])) = [] := by
    unfold getHeadingsOf
    rw [hsplit]
    show ((interior ++ [closeL]).foldl headStep (headStep ⟨false, 0, []⟩ openL)).acc = []
    have hstep1h : headStep ⟨false, 0, []⟩ openL = ⟨true, t, []⟩ := by
      unfold headStep
      rw [hopen, if_pos (by omega), if_pos rfl]
    rw [hstep1h, List.foldl_append,
      foldl_headStep_inactive interior _ rfl rfl hint]
    show (headStep ⟨true, t, []⟩ closeL).acc = []
    unfold headStep
    rw [if_pos (by omega : 3 ≤ fenceLen closeL), if_neg (by simp),
      if_pos (by show t ≤ fenceLen closeL; exact hclose)]
  refine ⟨by rw [hparse], hheads, ?_⟩
  unfold validateW
  rw [hsplit]
  dsimp only
  rw [hparse]
  simp only [List.map_nil, List.nil_append]
  rw [List.filter_eq_nil]
  intro w hw
  obtain ⟨i, -, hfi⟩ := List.mem_filterMap.1 hw
  split at hfi
  · exact absurd hfi (by simp)
  · split at hfi
    · split at hfi
      · exact absurd hfi (by simp)
      · split at hfi
        · simp only [Option.some.injEq] at hfi
          rw [← hfi]
          simp
        · exact absurd hfi (by simp)
    · exact absurd hfi (by simp)

theorem C4_witness :
    4 ≤ 4 ∧ fenceLen "````".data = 4 ∧
    (∀ l ∈ ["```".data, "# X".data, "```".data], fenceLen l < 4) ∧
    4 ≤ fenceLen "````".data ∧
    (parseCodeBlocks ["````".data, "```".data, "# X".data, "```".data, "````".data]).2 = [] ∧
    getHeadingsOf (joinNl ["````".data, "```".data, "# X".data, "```".data, "````".data]) = [] ∧
    (validateW (joinNl ["````".data, "```".data, "# X".data, "```".data, "````".data])).filter
      (fun w => w.rule == WRule.unclosedCodeBlock) = [] := by
  refine ⟨by decide, by decide, by decide, by decide, ?_⟩
  have h := C4_fence_nesting 4 "````".data "````".data
    ["```".data, "# X".data, "```".data]
    (by decide) (by decide) (by decide) (by decide) (by decide)
  exact h

/-- C9 (confirmed): section-boundary resolution is not fence-aware — in
the body made of a closed 3-backtick fence around the heading-like line
`## H`, the selector `H` matches that line (index 1, i.e. line number 2,
strictly inside the closed range (1,4)) and `readSection` returns its
body, while `getHeadings` extracts nothing from the same body. -/
theorem C9_not_fence_aware :
    findSectionBounds ["```".data, "## H".data, "x".data, "```".data] "H".data
      = some (2, 4, 2) ∧
    (parseCodeBlocks ["```".data, "## H".data, "x".data, "```".data]).1 = [(1, 4)] ∧
    ((1 : Nat) < 2 ∧ (2 : Nat) < 4) ∧
    getHeadingsOf "```\n## H\nx\n```".data = [] ∧
    (opReadSection "N9".data "H".data (mkVault
      [⟨"N9".data, false, "```\n## H\nx\n```".data⟩])).2 =
        .ok ('x' :: '\n' :: '`' :: '`' :: '`' :: []) := by
  refine ⟨by decide, by decide, by decide, by decide, by decide⟩

theorem fenceStep_stackLen (n : Nat) (l : Str) (st : FenceSt)
    (h : st.stack.length = (if st.inCode then 1 else 0)) :
    (fenceStep n l st).stack.length =
      (if (fenceStep n l st).inCode then 1 else 0) := by
  unfold fenceStep
  by_cases hb : 3 ≤ fenceLen l
  · rw [if_pos hb]
    by_cases hic : st.inCode = false
    · rw [if_pos hic]
      rw [hic] at h
      simp only [Bool.false_eq_true, if_false] at h
      simp [h]
    · rw [if_neg hic]
      have hic' : st.inCode = true := by
        cases hcase : st.inCode with
        | false => exact absurd hcase hic
        | true => rfl
      rw [hic'] at h
      simp only [if_true] at h
      by_cases hcur : st.cur ≤ fenceLen l
      · rw [if_pos hcur]
        cases hstk : st.stack with
        | nil => rw [hstk] at h; simp at h
        | cons p ps =>
          rw [hstk] at h
          simp only [List.length_cons] at h
          have hps : ps = [] := by
            cases ps with
            | nil => rfl
            | cons q qs => simp at h
          subst hps
          show ((⟨st.closed ++ [(p.1, n)], List.dropLast [p], false, 0⟩ : FenceSt)).stack.length = _
          simp
      · rw [if_neg hcur]
        rw [hic']
        simpa using h
  · rw [if_neg hb]
    exact h

theorem fenceScanAux_stackLen : ∀ (lines : List Str) (n : Nat) (st : FenceSt),
    st.stack.length = (if st.inCode then 1 else 0) →
    (fenceScanAux n lines st).stack.length =
      (if (fenceScanAux n lines st).inCode then 1 else 0) := by
  intro lines
  induction lines with
  | nil => intro n st h; exact h
  | cons l ls ih =>
    intro n st h
    exact ih (n + 1) (fenceStep n l st) (fenceStep_stackLen n l st h)

theorem unclosed_len_le_one (lines : List Str) :
    (parseCodeBlocks lines).2.length ≤ 1 := by
  unfold parseCodeBlocks
  rw [List.length_map]
  have h := fenceScanAux_stackLen lines 1 ⟨[], [], false, 0⟩ (by simp)
  rw [h]
  split <;> omega

theorem checkTables_rule (lines : List Str) (r : List (Nat × Nat)) :
    ∀ w ∈ checkTables lines r, w.rule = WRule.tableBlankLine := by
  intro w hw
  obtain ⟨i, -, hfi⟩ := List.mem_filterMap.1 hw
  split at hfi
  · exact absurd hfi (by simp)
  · split at hfi
    · split at hfi
      · exact absurd hfi (by simp)
      · split at hfi
        · simp only [Option.some.injEq] at hfi
          rw [← hfi]
        · exact absurd hfi (by simp)
    · exact absurd hfi (by simp)

/-- C10 (confirmed): `validate()` returns at most one warning with rule
"unclosed-code-block": the fence scanner keeps at most one open fence, so
the unclosed list has length 0 or 1. -/
theorem C10_at_most_one_unclosed (content : Str) :
    ((validateW content).filter
      (fun w => w.rule == WRule.unclosedCodeBlock)).length ≤ 1 := by
  unfold validateW
  rw [List.filter_append]
  have h2 : (checkTables (splitNl content)
      (parseCodeBlocks (splitNl content)).1).filter
      (fun w => w.rule == WRule.unclosedCodeBlock) = [] := by
    rw [List.filter_eq_nil]
    intro w hw
    rw [checkTables_rule _ _ w hw]
    simp
  rw [h2, List.append_nil]
  have h1 : ∀ ns : List Nat,
      ((ns.map (fun n => (⟨n, WRule.unclosedCodeBlock⟩ : VWarning))).filter
        (fun w => w.rule == WRule.unclosedCodeBlock)).length = ns.length := by
    intro ns
    induction ns with
    | nil => rfl
    | cons m ms ih => simp only [List.map_cons, List.filter_cons]; simp [ih]
  rw [h1]
  exact unclosed_len_le_one (splitNl content)

/-! ### Lemmas: section boundaries -/

theorem findEndAux_spec (L : Nat) : ∀ (ls : List Str) (i : Nat),
    i ≤ findEndAux L ls i ∧ findEndAux L ls i ≤ i + ls.length ∧
    (∀ j, i ≤ j → j < findEndAux L ls i → isTerm L (ls.getD (j - i) []) = false) ∧
    (findEndAux L ls i < i + ls.length →
      isTerm L (ls.getD (findEndAux L ls i - i) []) = true) := by
  intro ls
  induction ls with
  | nil =>
    intro i
    refine ⟨Nat.le_refl i, by simp [findEndAux], ?_, ?_⟩
    · intro j h1 h2
      simp only [findEndAux] at h2
      omega
    · intro h
      simp [findEndAux] at h
  | cons l rest ih =>
    intro i
    by_cases ht : isTerm L l = true
    · have he : findEndAux L (l :: rest) i = i := by
        simp [findEndAux, ht]
      rw [he]
      refine ⟨Nat.le_refl i, by simp, ?_, ?_⟩
      · intro j h1 h2
        omega
      · intro _
        rw [Nat.sub_self]
        exact ht
    · have hf : isTerm L l = false := by
        cases hcase : isTerm L l with
        | true => exact absurd hcase ht
        | false => rfl
      have he : findEndAux L (l :: rest) i = findEndAux L rest (i + 1) := by
        simp [findEndAux, hf]
      obtain ⟨ih1, ih2, ih3, ih4⟩ := ih (i + 1)
      rw [he]
      refine ⟨by omega, by simp only [List.length_cons]; omega, ?_, ?_⟩
      · intro j h1 h2
        by_cases hj : j = i
        · subst hj
          rw [Nat.sub_self]
          exact hf
        · have hge : i + 1 ≤ j := by omega
          have h3 := ih3 j hge h2
          have harith : j - i = (j - (i + 1)) + 1 := by omega
          rw [harith, List.getD_cons_succ]
          exact h3
      · intro hlt
        have hlt' : findEndAux L rest (i + 1) < (i + 1) + rest.length := by
          simp only [List.length_cons] at hlt
          omega
        have h4 := ih4 hlt'
        have harith : findEndAux L rest (i + 1) - i =
            (findEndAux L rest (i + 1) - (i + 1)) + 1 := by omega
        rw [harith, List.getD_cons_succ]
        exact h4

theorem findHeadAux_bounds (ss : Str) : ∀ (ls : List Str) (i0 i lvl : Nat),
    findHeadAux ss ls i0 = some (i, lvl) → i0 ≤ i ∧ i < i0 + ls.length := by
  intro ls
  induction ls with
  | nil => intro i0 i lvl h; simp [findHeadAux] at h
  | cons l rest ih =>
    intro i0 i lvl h
    unfold findHeadAux at h
    cases hm : matchSel ss l with
    | some k =>
      rw [hm] at h
      simp only [Option.some.injEq, Prod.mk.injEq] at h
      obtain ⟨h1, -⟩ := h
      subst h1
      simp only [List.length_cons]
      omega
    | none =>
      rw [hm] at h
      have := ih (i0 + 1) i lvl h
      simp only [List.length_cons]
      omega

theorem getD_drop (l : List Str) (st j : Nat) :
    (l.drop st).getD j [] = l.getD (st + j) [] := by
  rw [List.getD_eq_getElem?_getD, List.getD_eq_getElem?_getD, List.getElem?_drop]

/-- C5 (corrected): the claim's general boundary rule is false — the line
`##Y` has a leading hash run of length 2 ≤ the matched level 2, yet does
not terminate the section, because the terminator pattern `^#{1,L}\s`
also requires a whitespace character after the hash run. -/
theorem C5_cex :
    findSectionBounds ["## H".data, "X".data, "##Y".data, "Z".data] "H".data =
      some (1, 4, 2) ∧
    leadingRun (· == '#') "##Y".data = 2 ∧ (2 : Nat) ≤ 2 ∧
    (opReadSection "N".data "H".data
      (mkVault [⟨"N".data, false, "## H\nX\n##Y\nZ".data⟩])).2 =
        .ok "X\n##Y\nZ".data := by
  refine ⟨by decide, by decide, by decide, by decide⟩

/-- C5 (amended): the concrete read/replace round-trip holds, and in
general the section body of a matched heading of level `L` ends at the
first subsequent line whose leading `#` run has length between 1 and `L`
and is followed immediately by a whitespace character (the `^#{1,L}\s`
terminator), or at end-of-document when no such line exists. -/
theorem C5_section_roundtrip_and_bounds :
    ((opReadSection "N".data "H".data (mkVault demoSections)).2 = .ok "X".data ∧
      findRoot (opUpdateSection "N".data "H".data "Z".data
          (mkVault demoSections)).1.files "N".data =
        some ⟨"N".data, false, "## H\nZ\n## H2\nY".data⟩) ∧
    ∀ (lines : List Str) (sec : Str) (st en L : Nat),
      findSectionBounds lines sec = some (st, en, L) →
      st ≤ en ∧ en ≤ lines.length ∧
      (∀ j, st ≤ j → j < en → isTerm L (lines.getD j []) = false) ∧
      (en < lines.length → isTerm L (lines.getD en []) = true) := by
  refine ⟨⟨by decide, by decide⟩, ?_⟩
  intro lines sec st en L h
  unfold findSectionBounds at h
  cases hh : findHeadAux (stripWS sec) lines 0 with
  | none => rw [hh] at h; simp at h
  | some p =>
    obtain ⟨i, lvl⟩ := p
    rw [hh] at h
    simp only [Option.some.injEq, Prod.mk.injEq] at h
    obtain ⟨hst, hen, hlvl⟩ := h
    subst hst
    subst hlvl
    have hib := findHeadAux_bounds (stripWS sec) lines 0 i lvl hh
    obtain ⟨he1, he2, he3, he4⟩ := findEndAux_spec lvl (lines.drop (i + 1)) (i + 1)
    rw [hen] at he1 he2 he3 he4
    have hlen : (lines.drop (i + 1)).length = lines.length - (i + 1) := by simp
    refine ⟨he1, by omega, ?_, ?_⟩
    · intro j h1 h2
      have := he3 j h1 h2
      rwa [getD_drop, Nat.add_sub_cancel' h1] at this
    · intro hlt
      have hlt' : en < (i + 1) + (lines.drop (i + 1)).length := by omega
      have := he4 hlt'
      rwa [getD_drop, Nat.add_sub_cancel' he1] at this

theorem C5_witness :
    findSectionBounds ["## H".data, "X".data, "## H2".data, "Y".data] "H".data =
      some (1, 2, 2) ∧
    1 ≤ 2 ∧ (2 : Nat) ≤ 4 ∧
    isTerm 2 (["## H".data, "X".data, "## H2".data, "Y".data].getD 2 []) = true := by
  have h := C5_section_roundtrip_and_bounds.2
    ["## H".data, "X".data, "## H2".data, "Y".data] "H".data 1 2 2 (by decide)
  exact ⟨by decide, h.1, h.2.1, h.2.2.2 (by decide)⟩

/-- C8 (confirmed): `getNote` on an index miss rebuilds the index exactly
once (the ghost counter increases by one) and retries: a name found on
disk by the rebuild is returned; a name still absent raises
`NoteNotFound`. -/
theorem C8_get_note_retry (files : List VFile) (idx : IndexM) (name : Str)
    (k : Nat) (hmiss : lookupNote idx name = none) :
    (getNoteS name ⟨files, some idx, k⟩).1.rebuilds = k + 1 ∧
    (getNoteS name ⟨files, some idx, k⟩).1.index = some (buildIndex files) ∧
    (getNoteS name ⟨files, some idx, k⟩).1.files = files ∧
    (∀ n, lookupNote (buildIndex files) name = some n →
      (getNoteS name ⟨files, some idx, k⟩).2 = .ok n) ∧
    (lookupNote (buildIndex files) name = none →
      (getNoteS name ⟨files, some idx, k⟩).2 = .error .noteNotFound) := by
  unfold getNoteS
  rw [show (ensureIndex ⟨files, some idx, k⟩).2 = idx from rfl, hmiss,
    show buildIndex (ensureIndex ⟨files, some idx, k⟩).1.files = buildIndex files from rfl]
  dsimp only
  cases hl : lookupNote (buildIndex files) name with
  | some n =>
    refine ⟨rfl, rfl, rfl, ?_, ?_⟩
    · intro n' h'
      cases h'
      rfl
    · intro h'
      exact Option.noConfusion h'
  | none =>
    refine ⟨rfl, rfl, rfl, ?_, ?_⟩
    · intro n' h'
      exact Option.noConfusion h'
    · intro _
      rfl

/-! ### Lemmas: heading validation -/

theorem validateHeadingsErr_some {c : Str} {e : Err}
    (h : validateHeadingsErr c = some e) : e = .invalidHeading := by
  unfold validateHeadingsErr at h
  split at h
  · exact absurd h (by simp)
  · simp only [Option.some.injEq] at h
    exact h.symm

theorem allIdx_iff (p : Nat → Str → Bool) : ∀ (ls : List Str) (i : Nat),
    allIdx p i ls = true ↔ ∀ j, j < ls.length → p (i + j) (ls.getD j []) = true := by
  intro ls
  induction ls with
  | nil =>
    intro i
    simp [allIdx]
  | cons l rest ih =>
    intro i
    simp only [allIdx, Bool.and_eq_true, ih (i + 1), List.length_cons]
    constructor
    · rintro ⟨h1, h2⟩ j hj
      cases j with
      | zero => simpa using h1
      | succ j' =>
        have := h2 j' (by omega)
        rw [List.getD_cons_succ]
        have harith : i + (j' + 1) = i + 1 + j' := by omega
        rw [harith]
        exact this
    · intro h
      constructor
      · have := h 0 (by omega)
        simpa using this
      · intro j hj
        have := h (j + 1) (by omega)
        rw [List.getD_cons_succ] at this
        have harith : i + (j + 1) = i + 1 + j := by omega
        rw [harith] at this
        exact this

theorem validateHeadings_iff (c : Str) :
    validateHeadingsErr c = some Err.invalidHeading ↔ CyrHeadingOutsideClosed c := by
  unfold validateHeadingsErr CyrHeadingOutsideClosed
  split
  · rename_i hok
    unfold validateHeadingsOk at hok
    dsimp only at hok
    rw [allIdx_iff] at hok
    constructor
    · intro h
      exact absurd h (by simp)
    · rintro ⟨j, hj, hin, hcyr⟩
      have := hok j hj
      rw [Nat.zero_add] at this
      rw [hin, hcyr] at this
      simp at this
  · rename_i hok
    constructor
    · intro _
      unfold validateHeadingsOk at hok
      dsimp only at hok
      rw [Bool.not_eq_true] at hok
      have hex : ¬ ∀ j, j < (splitNl c).length →
          (insideClosed (0 + j + 1) (parseCodeBlocks (splitNl c)).1 ||
            !headingCyrLine ((splitNl c).getD j [])) = true := by
        intro hall
        have hall2 := (allIdx_iff
          (fun i l => insideClosed (i + 1) (parseCodeBlocks (splitNl c)).1 ||
            !headingCyrLine l) (splitNl c) 0).2 (fun j hj => hall j hj)
        rw [hall2] at hok
        exact Bool.noConfusion hok
      push_neg at hex
      obtain ⟨j, hj, hb⟩ := hex
      have hb2 : (insideClosed (0 + j + 1) (parseCodeBlocks (splitNl c)).1 ||
          !headingCyrLine ((splitNl c).getD j [])) = false := by
        revert hb
        cases insideClosed (0 + j + 1) (parseCodeBlocks (splitNl c)).1 ||
          !headingCyrLine ((splitNl c).getD j []) <;> simp
      rw [Nat.zero_add, Bool.or_eq_false_iff] at hb2
      refine ⟨j, hj, hb2.1, ?_⟩
      simpa using hb2.2
    · intro _
      rfl

/-- C7 (corrected): the claim's "iff over the full new body" is false —
`append` validates headings against the raw current file text (front
matter framing included) plus the separator and appended text, so a
Cyrillic heading-shaped line inside the front-matter block makes `append`
raise `InvalidHeading` although the note body plus text contains no
Cyrillic at all. -/
theorem C7_cex :
    (opAppend "N".data "x".data (mkVault demoFmCyr)).2 = .error .invalidHeading ∧
    (match lookupNote (buildIndex demoFmCyr) "N".data with
      | some n => n.body
      | none => []) = "body".data ∧
    hasCyr ("body".data ++ '\n' :: '\n' :: "x".data) = false := by
  refine ⟨by decide, by decide, by decide⟩

/-- C7 (amended): for an existing note, `append(name, text)` raises
`InvalidHeading` iff the raw on-disk file text followed by the
`"\n\n"` separator and `text` contains a heading line with a Cyrillic
code point outside the *closed* fence ranges (the scan covers the
front-matter text too, and skips only closed fences); `update(name,
content)` raises `InvalidHeading` iff `content` does, by the same rule;
in both cases the error is raised before any file is written. -/
theorem C7_heading_validation (files : List VFile) (name text content : Str)
    (note : NoteM) (f : VFile)
    (hl : lookupNote (buildIndex files) name = some note)
    (hf : findRoot files note.name = some f) :
    ((opAppend name text (mkVault files)).2 = .error .invalidHeading ↔
      CyrHeadingOutsideClosed (f.raw ++ '\n' :: '\n' :: text)) ∧
    ((opAppend name text (mkVault files)).2 = .error .invalidHeading →
      (opAppend name text (mkVault files)).1.files = files) ∧
    ((opUpdate name content (mkVault files)).2 = .error .invalidHeading ↔
      CyrHeadingOutsideClosed content) ∧
    ((opUpdate name content (mkVault files)).2 = .error .invalidHeading →
      (opUpdate name content (mkVault files)).1.files = files) := by
  have hg := getNoteS_mkVault_hit hl
  have hf' : findRoot (doRebuild (mkVault files)).files note.name = some f := hf
  have happ : ∀ p : VState × Except Err Unit,
      p = opAppend name text (mkVault files) →
      (p.2 = .error .invalidHeading ↔
        CyrHeadingOutsideClosed (f.raw ++ '\n' :: '\n' :: text)) ∧
      (p.2 = .error .invalidHeading → p.1.files = files) := by
    intro p hp
    rw [opAppend, hg] at hp
    dsimp only at hp
    rw [hf'] at hp
    dsimp only at hp
    cases hv : validateHeadingsErr (f.raw ++ '\n' :: '\n' :: text) with
    | some e =>
      have he : e = .invalidHeading := validateHeadingsErr_some hv
      subst he
      rw [hv] at hp
      dsimp only at hp
      subst hp
      refine ⟨?_, fun _ => rfl⟩
      simp only [true_iff]
      exact (validateHeadings_iff _).1 hv
    | none =>
      rw [hv] at hp
      dsimp only at hp
      have hpred : ¬ CyrHeadingOutsideClosed (f.raw ++ '\n' :: '\n' :: text) := by
        intro hc
        rw [← validateHeadings_iff] at hc
        rw [hv] at hc
        exact Option.noConfusion hc
      rcases hw : validateWikilinksS (f.raw ++ '\n' :: '\n' :: text)
          (doRebuild (mkVault files)) with ⟨s2, r2⟩
      rw [hw] at hp
      cases r2 with
      | error e2 =>
        have he2 : e2 = .brokenLink := by
          have := validateWikilinksS_err (e := e2) (by rw [hw])
          exact this
        subst he2
        subst hp
        refine ⟨?_, ?_⟩
        · simp
          exact hpred
        · intro hcontra
          simp at hcontra
      | ok u =>
        subst hp
        refine ⟨?_, ?_⟩
        · simp
          exact hpred
        · intro hcontra
          simp at hcontra
  have hupd : ∀ p : VState × Except Err Unit,
      p = opUpdate name content (mkVault files) →
      (p.2 = .error .invalidHeading ↔ CyrHeadingOutsideClosed content) ∧
      (p.2 = .error .invalidHeading → p.1.files = files) := by
    intro p hp
    rw [opUpdate, hg] at hp
    dsimp only at hp
    cases hv : validateHeadingsErr content with
    | some e =>
      have he : e = .invalidHeading := validateHeadingsErr_some hv
      subst he
      rw [hv] at hp
      dsimp only at hp
      subst hp
      refine ⟨?_, fun _ => rfl⟩
      simp only [true_iff]
      exact (validateHeadings_iff _).1 hv
    | none =>
      rw [hv] at hp
      dsimp only at hp
      have hpred : ¬ CyrHeadingOutsideClosed content := by
        intro hc
        rw [← validateHeadings_iff] at hc
        rw [hv] at hc
        exact Option.noConfusion hc
      rcases hw : validateWikilinksS content (doRebuild (mkVault files)) with ⟨s2, r2⟩
      rw [hw] at hp
      cases r2 with
      | error e2 =>
        have he2 : e2 = .brokenLink := by
          exact validateWikilinksS_err (e := e2) (by rw [hw])
        subst he2
        subst hp
        refine ⟨?_, ?_⟩
        · simp
          exact hpred
        · intro hcontra
          simp at hcontra
      | ok u =>
        subst hp
        refine ⟨?_, ?_⟩
        · simp
          exact hpred
        · intro hcontra
          simp at hcontra
  obtain ⟨h1, h2⟩ := happ _ rfl
  obtain ⟨h3, h4⟩ := hupd _ rfl
  exact ⟨h1, h2, h3, h4⟩

theorem C7_witness :
    lookupNote (buildIndex demoFmCyr) "N".data =
      some ⟨"N".data, some ('#' :: ' ' :: 'П' :: 'р' :: 'и' :: 'в' :: 'е' :: 'т' :: []),
        "body".data, []⟩ ∧
    ((opUpdate "N".data ('#' :: ' ' :: 'Д' :: []) (mkVault demoFmCyr)).2 =
      .error .invalidHeading) := by
  have hl : lookupNote (buildIndex demoFmCyr) "N".data =
      some ⟨"N".data, some ('#' :: ' ' :: 'П' :: 'р' :: 'и' :: 'в' :: 'е' :: 'т' :: []),
        "body".data, []⟩ := by decide
  have hf : findRoot demoFmCyr
      (NoteM.name ⟨"N".data, some ('#' :: ' ' :: 'П' :: 'р' :: 'и' :: 'в' :: 'е' :: 'т' :: []),
        "body".data, []⟩) = some ⟨"N".data, false, "---\n# Привет\n---\nbody".data⟩ := by
    decide
  have h := C7_heading_validation demoFmCyr "N".data "x".data
    ('#' :: ' ' :: 'Д' :: []) _ _ hl hf
  refine ⟨hl, ?_⟩
  exact h.2.2.1.2 ⟨0, by decide, by decide, by decide⟩

theorem C8_witness :
    lookupNote (buildIndex ([] : List VFile)) "A".data = none ∧
    (getNoteS "A".data
      ⟨[⟨"A".data, false, "hi".data⟩], some (buildIndex []), 5⟩).1.rebuilds = 6 ∧
    (getNoteS "A".data
      ⟨[⟨"A".data, false, "hi".data⟩], some (buildIndex []), 5⟩).2 =
      .ok ⟨"A".data, none, "hi".data, []⟩ := by
  have h := C8_get_note_retry [⟨"A".data, false, "hi".data⟩]
    (buildIndex []) "A".data 5 (by decide)
  exact ⟨by decide, h.1, h.2.2.2.1 _ (by decide)⟩

/-! ### Lemmas: error results leave the files untouched -/

theorem eraseVal_fst {α : Type} (p : MRes α) : (eraseVal p).1 = p.1 := by
  rcases p with ⟨s, r⟩
  cases r <;> rfl

theorem eraseVal_err {α : Type} (p : MRes α) (e : Err) :
    (eraseVal p).2 = .error e ↔ p.2 = .error e := by
  rcases p with ⟨s, r⟩
  cases r <;> simp [eraseVal]

theorem getIncomingS_of_index {s : VState} {idx : IndexM} (h : s.index = some idx)
    (nm : Str) : getIncomingS nm s = (s, lookupIncoming idx.incoming nm) := by
  unfold getIncomingS ensureIndex
  rw [h]

theorem opCreate_err_files (name content : Str) (fm : Option Str) (s : VState) (e : Err) :
    (opCreate name content fm s).2 = .error e →
    (opCreate name content fm s).1.files = s.files := by
  suffices hsuf : ∀ p : MRes Unit, p = opCreate name content fm s →
      p.2 = .error e → p.1.files = s.files by exact hsuf _ rfl
  intro p hp
  rw [opCreate] at hp
  cases hv : validateNameErr name with
  | some e0 => rw [hv] at hp; dsimp only at hp; subst hp; intro _; rfl
  | none =>
    rw [hv] at hp; dsimp only at hp
    cases hh : validateHeadingsErr content with
    | some e0 => rw [hh] at hp; dsimp only at hp; subst hp; intro _; rfl
    | none =>
      rw [hh] at hp; dsimp only at hp
      rcases hw : validateWikilinksS content s with ⟨s1, r1⟩
      have hf1 : s1.files = s.files := by
        have := validateWikilinksS_files content s
        rw [hw] at this
        exact this
      rw [hw] at hp
      cases r1 with
      | error e1 => dsimp only at hp; subst hp; intro _; exact hf1
      | ok u =>
        dsimp only at hp
        split at hp
        · subst hp; intro _; exact hf1
        · subst hp; intro hc; exact absurd hc (by simp)

theorem opRead_err_files (name : Str) (s : VState) (e : Err) :
    (opRead name s).2 = .error e → (opRead name s).1.files = s.files := by
  suffices hsuf : ∀ p : MRes Str, p = opRead name s →
      p.2 = .error e → p.1.files = s.files by exact hsuf _ rfl
  intro p hp
  rcases hg : getNoteS name s with ⟨s1, r1⟩
  have hf1 : s1.files = s.files := by
    have := getNoteS_files name s
    rw [hg] at this
    exact this
  rw [opRead, hg] at hp
  cases r1 with
  | error e1 => dsimp only at hp; subst hp; intro _; exact hf1
  | ok note =>
    dsimp only at hp
    cases hfr : findRoot s1.files note.name with
    | some f =>
      rw [hfr] at hp; dsimp only at hp; subst hp
      intro hc; exact absurd hc (by simp)
    | none => rw [hfr] at hp; dsimp only at hp; subst hp; intro _; exact hf1

theorem opAppend_err_files (name text : Str) (s : VState) (e : Err) :
    (opAppend name text s).2 = .error e → (opAppend name text s).1.files = s.files := by
  suffices hsuf : ∀ p : MRes Unit, p = opAppend name text s →
      p.2 = .error e → p.1.files = s.files by exact hsuf _ rfl
  intro p hp
  rcases hg : getNoteS name s with ⟨s1, r1⟩
  have hf1 : s1.files = s.files := by
    have := getNoteS_files name s
    rw [hg] at this
    exact this
  rw [opAppend, hg] at hp
  cases r1 with
  | error e1 => dsimp only at hp; subst hp; intro _; exact hf1
  | ok note =>
    dsimp only at hp
    cases hfr : findRoot s1.files note.name with
    | none => rw [hfr] at hp; dsimp only at hp; subst hp; intro _; exact hf1
    | some f =>
      rw [hfr] at hp; dsimp only at hp
      cases hh : validateHeadingsErr (f.raw ++ '\n' :: '\n' :: text) with
      | some e0 => rw [hh] at hp; dsimp only at hp; subst hp; intro _; exact hf1
      | none =>
        rw [hh] at hp; dsimp only at hp
        rcases hw : validateWikilinksS (f.raw ++ '\n' :: '\n' :: text) s1 with ⟨s2, r2⟩
        have hf2 : s2.files = s1.files := by
          have := validateWikilinksS_files (f.raw ++ '\n' :: '\n' :: text) s1
          rw [hw] at this
          exact this
        rw [hw] at hp
        cases r2 with
        | error e2 => dsimp only at hp; subst hp; intro _; rw [hf2]; exact hf1
        | ok u => dsimp only at hp; subst hp; intro hc; exact absurd hc (by simp)

theorem opUpdate_err_files (name content : Str) (s : VState) (e : Err) :
    (opUpdate name content s).2 = .error e → (opUpdate name content s).1.files = s.files := by
  suffices hsuf : ∀ p : MRes Unit, p = opUpdate name content s →
      p.2 = .error e → p.1.files = s.files by exact hsuf _ rfl
  intro p hp
  rcases hg : getNoteS name s with ⟨s1, r1⟩
  have hf1 : s1.files = s.files := by
    have := getNoteS_files name s
    rw [hg] at this
    exact this
  rw [opUpdate, hg] at hp
  cases r1 with
  | error e1 => dsimp only at hp; subst hp; intro _; exact hf1
  | ok note =>
    dsimp only at hp
    cases hh : validateHeadingsErr content with
    | some e0 => rw [hh] at hp; dsimp only at hp; subst hp; intro _; exact hf1
    | none =>
      rw [hh] at hp; dsimp only at hp
      rcases hw : validateWikilinksS content s1 with ⟨s2, r2⟩
      have hf2 : s2.files = s1.files := by
        have := validateWikilinksS_files content s1
        rw [hw] at this
        exact this
      rw [hw] at hp
      cases r2 with
      | error e2 => dsimp only at hp; subst hp; intro _; rw [hf2]; exact hf1
      | ok u => dsimp only at hp; subst hp; intro hc; exact absurd hc (by simp)

theorem opFrontmatterSet_err_files (name key val : Str) (s : VState) (e : Err) :
    (opFrontmatterSet name key val s).2 = .error e →
    (opFrontmatterSet name key val s).1.files = s.files := by
  suffices hsuf : ∀ p : MRes Unit, p = opFrontmatterSet name key val s →
      p.2 = .error e → p.1.files = s.files by exact hsuf _ rfl
  intro p hp
  rcases hg : getNoteS name s with ⟨s1, r1⟩
  have hf1 : s1.files = s.files := by
    have := getNoteS_files name s
    rw [hg] at this
    exact this
  rw [opFrontmatterSet, hg] at hp
  cases r1 with
  | error e1 => dsimp only at hp; subst hp; intro _; exact hf1
  | ok note => dsimp only at hp; subst hp; intro hc; exact absurd hc (by simp)

theorem opReplace_err_files (name oldT newT : Str) (all : Bool) (s : VState) (e : Err) :
    (opReplace name oldT newT all s).2 = .error e →
    (opReplace name oldT newT all s).1.files = s.files := by
  suffices hsuf : ∀ p : MRes Nat, p = opReplace name oldT newT all s →
      p.2 = .error e → p.1.files = s.files by exact hsuf _ rfl
  intro p hp
  rcases hg : getNoteS name s with ⟨s1, r1⟩
  have hf1 : s1.files = s.files := by
    have := getNoteS_files name s
    rw [hg] at this
    exact this
  rw [opReplace, hg] at hp
  cases r1 with
  | error e1 => dsimp only at hp; subst hp; intro _; exact hf1
  | ok note =>
    dsimp only at hp
    split at hp
    · subst hp; intro _; exact hf1
    · split at hp
      · subst hp; intro hc; exact absurd hc (by simp)
      · subst hp; intro hc; exact absurd hc (by simp)

theorem opInsert_err_files (name text : Str) (b a : Option Str) (s : VState) (e : Err) :
    (opInsert name text b a s).2 = .error e →
    (opInsert name text b a s).1.files = s.files := by
  suffices hsuf : ∀ p : MRes Unit, p = opInsert name text b a s →
      p.2 = .error e → p.1.files = s.files by exact hsuf _ rfl
  intro p hp
  rw [opInsert] at hp
  split at hp
  · subst hp; intro _; rfl
  · rcases hg : getNoteS name s with ⟨s1, r1⟩
    have hf1 : s1.files = s.files := by
      have := getNoteS_files name s
      rw [hg] at this
      exact this
    rw [hg] at hp
    cases r1 with
    | error e1 => dsimp only at hp; subst hp; intro _; exact hf1
    | ok note =>
      dsimp only at hp
      cases hfi : (splitNl note.body).findIdx?
          (fun l => stripWS l == stripWS (b.getD (a.getD []))) with
      | none => rw [hfi] at hp; dsimp only at hp; subst hp; intro _; exact hf1
      | some i =>
        rw [hfi] at hp; dsimp only at hp; subst hp
        intro hc; exact absurd hc (by simp)

theorem opReadSection_err_files (name sec : Str) (s : VState) (e : Err) :
    (opReadSection name sec s).2 = .error e →
    (opReadSection name sec s).1.files = s.files := by
  suffices hsuf : ∀ p : MRes Str, p = opReadSection name sec s →
      p.2 = .error e → p.1.files = s.files by exact hsuf _ rfl
  intro p hp
  rcases hg : getNoteS name s with ⟨s1, r1⟩
  have hf1 : s1.files = s.files := by
    have := getNoteS_files name s
    rw [hg] at this
    exact this
  rw [opReadSection, hg] at hp
  cases r1 with
  | error e1 => dsimp only at hp; subst hp; intro _; exact hf1
  | ok note =>
    dsimp only at hp
    rcases hsb : findSectionBounds (splitNl note.body) sec with - | ⟨st, en, L⟩
    · rw [hsb] at hp; dsimp only at hp; subst hp; intro _; exact hf1
    · rw [hsb] at hp; dsimp only at hp; subst hp
      intro hc; exact absurd hc (by simp)

theorem opAppendSection_err_files (name sec text : Str) (s : VState) (e : Err) :
    (opAppendSection name sec text s).2 = .error e →
    (opAppendSection name sec text s).1.files = s.files := by
  suffices hsuf : ∀ p : MRes Unit, p = opAppendSection name sec text s →
      p.2 = .error e → p.1.files = s.files by exact hsuf _ rfl
  intro p hp
  rcases hg : getNoteS name s with ⟨s1, r1⟩
  have hf1 : s1.files = s.files := by
    have := getNoteS_files name s
    rw [hg] at this
    exact this
  rw [opAppendSection, hg] at hp
  cases r1 with
  | error e1 => dsimp only at hp; subst hp; intro _; exact hf1
  | ok note =>
    dsimp only at hp
    rcases hsb : findSectionBounds (splitNl note.body) sec with - | ⟨st, en, L⟩
    · rw [hsb] at hp; dsimp only at hp; subst hp; intro _; exact hf1
    · rw [hsb] at hp; dsimp only at hp
      cases hh : validateHeadingsErr (joinNl (insertAt en text (splitNl note.body))) with
      | some e0 => rw [hh] at hp; dsimp only at hp; subst hp; intro _; exact hf1
      | none =>
        rw [hh] at hp; dsimp only at hp
        rcases hw : validateWikilinksS (joinNl (insertAt en text (splitNl note.body))) s1
          with ⟨s2, r2⟩
        have hf2 : s2.files = s1.files := by
          have := validateWikilinksS_files (joinNl (insertAt en text (splitNl note.body))) s1
          rw [hw] at this
          exact this
        rw [hw] at hp
        cases r2 with
        | error e2 => dsimp only at hp; subst hp; intro _; rw [hf2]; exact hf1
        | ok u => dsimp only at hp; subst hp; intro hc; exact absurd hc (by simp)

theorem opUpdateSection_err_files (name sec content : Str) (s : VState) (e : Err) :
    (opUpdateSection name sec content s).2 = .error e →
    (opUpdateSection name sec content s).1.files = s.files := by
  suffices hsuf : ∀ p : MRes Unit, p = opUpdateSection name sec content s →
      p.2 = .error e → p.1.files = s.files by exact hsuf _ rfl
  intro p hp
  rcases hg : getNoteS name s with ⟨s1, r1⟩
  have hf1 : s1.files = s.files := by
    have := getNoteS_files name s
    rw [hg] at this
    exact this
  rw [opUpdateSection, hg] at hp
  cases r1 with
  | error e1 => dsimp only at hp; subst hp; intro _; exact hf1
  | ok note =>
    dsimp only at hp
    rcases hsb : findSectionBounds (splitNl note.body) sec with - | ⟨st, en, L⟩
    · rw [hsb] at hp; dsimp only at hp; subst hp; intro _; exact hf1
    · rw [hsb] at hp; dsimp only at hp
      cases hh : validateHeadingsErr (updSecBody (splitNl note.body) st en content) with
      | some e0 => rw [hh] at hp; dsimp only at hp; subst hp; intro _; exact hf1
      | none =>
        rw [hh] at hp; dsimp only at hp
        rcases hw : validateWikilinksS (updSecBody (splitNl note.body) st en content) s1
          with ⟨s2, r2⟩
        have hf2 : s2.files = s1.files := by
          have := validateWikilinksS_files (updSecBody (splitNl note.body) st en content) s1
          rw [hw] at this
          exact this
        rw [hw] at hp
        cases r2 with
        | error e2 => dsimp only at hp; subst hp; intro _; rw [hf2]; exact hf1
        | ok u => dsimp only at hp; subst hp; intro hc; exact absurd hc (by simp)

theorem opDeleteSection_err_files (name sec : Str) (s : VState) (e : Err) :
    (opDeleteSection name sec s).2 = .error e →
    (opDeleteSection name sec s).1.files = s.files := by
  suffices hsuf : ∀ p : MRes Unit, p = opDeleteSection name sec s →
      p.2 = .error e → p.1.files = s.files by exact hsuf _ rfl
  intro p hp
  rcases hg : getNoteS name s with ⟨s1, r1⟩
  have hf1 : s1.files = s.files := by
    have := getNoteS_files name s
    rw [hg] at this
    exact this
  rw [opDeleteSection, hg] at hp
  cases r1 with
  | error e1 => dsimp only at hp; subst hp; intro _; exact hf1
  | ok note =>
    dsimp only at hp
    rcases hsb : findSectionBounds (splitNl note.body) sec with - | ⟨st, en, L⟩
    · rw [hsb] at hp; dsimp only at hp; subst hp; intro _; exact hf1
    · rw [hsb] at hp; dsimp only at hp; subst hp
      intro hc; exact absurd hc (by simp)

theorem opGetHeadings_err_files (name : Str) (s : VState) (e : Err) :
    (opGetHeadings name s).2 = .error e →
    (opGetHeadings name s).1.files = s.files := by
  suffices hsuf : ∀ p : MRes (List (Nat × Str)), p = opGetHeadings name s →
      p.2 = .error e → p.1.files = s.files by exact hsuf _ rfl
  intro p hp
  rcases hg : getNoteS name s with ⟨s1, r1⟩
  have hf1 : s1.files = s.files := by
    have := getNoteS_files name s
    rw [hg] at this
    exact this
  rw [opGetHeadings, hg] at hp
  cases r1 with
  | error e1 => dsimp only at hp; subst hp; intro _; exact hf1
  | ok note => dsimp only at hp; subst hp; intro hc; exact absurd hc (by simp)

theorem opLinks_err_files (name : Str) (d : LinkDir) (s : VState) (e : Err) :
    (opLinks name d s).2 = .error e → (opLinks name d s).1.files = s.files := by
  suffices hsuf : ∀ p : MRes (List Str × List Str), p = opLinks name d s →
      p.2 = .error e → p.1.files = s.files by exact hsuf _ rfl
  intro p hp
  rcases hg : getNoteS name s with ⟨s1, r1⟩
  have hf1 : s1.files = s.files := by
    have := getNoteS_files name s
    rw [hg] at this
    exact this
  rw [opLinks, hg] at hp
  cases r1 with
  | error e1 => dsimp only at hp; subst hp; intro _; exact hf1
  | ok note =>
    dsimp only at hp
    split at hp
    · subst hp; intro hc; exact absurd hc (by simp)
    · subst hp; intro hc; exact absurd hc (by simp)

theorem opDelete_err_files (name : Str) (dr : Bool) {s : VState} (hwf : wfState s)
    (e : Err) :
    (opDelete name dr s).2 = .error e → (opDelete name dr s).1.files = s.files := by
  suffices hsuf : ∀ p : MRes DeleteRes, p = opDelete name dr s →
      p.2 = .error e → p.1.files = s.files by exact hsuf _ rfl
  intro p hp
  obtain ⟨hf1spec, hi1spec, hv1spec⟩ := getNoteS_spec hwf name
  rcases hg : getNoteS name s with ⟨s1, r1⟩
  rw [hg] at hf1spec hi1spec hv1spec
  simp only at hf1spec hi1spec hv1spec
  rw [opDelete, hg] at hp
  cases r1 with
  | error e1 => dsimp only at hp; subst hp; intro _; exact hf1spec
  | ok note =>
    dsimp only at hp
    cases dr with
    | true =>
      rw [if_pos rfl] at hp
      subst hp; intro hc; exact absurd hc (by simp)
    | false =>
      rw [if_neg Bool.false_ne_true] at hp
      have hl : lookupNote (buildIndex s.files) name = some note := by
        cases hl0 : lookupNote (buildIndex s.files) name with
        | some n =>
          rw [hl0] at hv1spec
          dsimp only at hv1spec
          injection hv1spec with hnn
          rw [hnn]
        | none =>
          rw [hl0] at hv1spec
          exact absurd hv1spec (by simp)
      rw [getIncomingS_of_index hi1spec name] at hp
      dsimp only at hp
      obtain ⟨hok, -, -, -⟩ := rewriteRefs_spec name (deletedName name) s.files
        (lookupIncoming (buildIndex s.files).incoming name) s1
        (by rw [hf1spec]) hi1spec (incoming_refs_resolve s.files name)
      rcases hr : rewriteRefs name (deletedName name)
          (lookupIncoming (buildIndex s.files).incoming name) s1 with ⟨s3, r3⟩
      rw [hr] at hok hp
      cases r3 with
      | error e3 => exact absurd hok (by simp)
      | ok u =>
        dsimp only at hp
        subst hp; intro hc; exact absurd hc (by simp)

theorem opRename_err_files (o n : Str) (dr : Bool) {s : VState} (hwf : wfState s)
    (e : Err) :
    (opRename o n dr s).2 = .error e → (opRename o n dr s).1.files = s.files := by
  suffices hsuf : ∀ p : MRes RenameRes, p = opRename o n dr s →
      p.2 = .error e → p.1.files = s.files by exact hsuf _ rfl
  intro p hp
  rw [opRename] at hp
  cases hv : validateNameErr n with
  | some e0 => rw [hv] at hp; dsimp only at hp; subst hp; intro _; rfl
  | none =>
    rw [hv] at hp; dsimp only at hp
    obtain ⟨hf1spec, hi1spec, hv1spec⟩ := getNoteS_spec hwf o
    rcases hg : getNoteS o s with ⟨s1, r1⟩
    rw [hg] at hf1spec hi1spec hv1spec
    simp only at hf1spec hi1spec hv1spec
    rw [hg] at hp
    cases r1 with
    | error e1 => dsimp only at hp; subst hp; intro _; exact hf1spec
    | ok note =>
      dsimp only at hp
      split at hp
      · subst hp; intro _; exact hf1spec
      · cases dr with
        | true =>
          rw [if_pos rfl] at hp
          subst hp; intro hc; exact absurd hc (by simp)
        | false =>
          rw [if_neg Bool.false_ne_true] at hp
          have hl : lookupNote (buildIndex s.files) o = some note := by
            cases hl0 : lookupNote (buildIndex s.files) o with
            | some m =>
              rw [hl0] at hv1spec
              dsimp only at hv1spec
              injection hv1spec with hnn
              rw [hnn]
            | none =>
              rw [hl0] at hv1spec
              exact absurd hv1spec (by simp)
          rw [getIncomingS_of_index hi1spec o] at hp
          dsimp only at hp
          obtain ⟨hok, -, -, -⟩ := rewriteRefs_spec o n s.files
            (lookupIncoming (buildIndex s.files).incoming o) s1
            (by rw [hf1spec]) hi1spec (incoming_refs_resolve s.files o)
          rcases hr : rewriteRefs o n
              (lookupIncoming (buildIndex s.files).incoming o) s1 with ⟨s3, r3⟩
          rw [hr] at hok hp
          cases r3 with
          | error e3 => exact absurd hok (by simp)
          | ok u =>
            dsimp only at hp
            subst hp; intro hc; exact absurd hc (by simp)

/-- C6 (corrected): every *non-batch* operation of §4.4 that returns a
blocking error leaves every vault file untouched (same name, directory
and content), given a well-formed handle state; but `batch_rename` does
not satisfy the claim — it renames earlier pairs before a later pair
fails validation, so the error surfaces after real mutations. -/
theorem C6_error_frame (c : OpCall) (s : VState) (e : Err) (hwf : wfState s)
    (h : (runOp c s).2 = .error e) : (runOp c s).1.files = s.files := by
  cases c with
  | create name content fm =>
    simp only [runOp] at h ⊢
    rw [eraseVal_fst]
    rw [eraseVal_err] at h
    exact opCreate_err_files name content fm s e h
  | readNote name =>
    simp only [runOp] at h ⊢
    rw [eraseVal_fst]
    rw [eraseVal_err] at h
    exact opRead_err_files name s e h
  | append name text =>
    simp only [runOp] at h ⊢
    rw [eraseVal_fst]
    rw [eraseVal_err] at h
    exact opAppend_err_files name text s e h
  | update name content =>
    simp only [runOp] at h ⊢
    rw [eraseVal_fst]
    rw [eraseVal_err] at h
    exact opUpdate_err_files name content s e h
  | delete name dr =>
    simp only [runOp] at h ⊢
    rw [eraseVal_fst]
    rw [eraseVal_err] at h
    exact opDelete_err_files name dr hwf e h
  | rename o n dr =>
    simp only [runOp] at h ⊢
    rw [eraseVal_fst]
    rw [eraseVal_err] at h
    exact opRename_err_files o n dr hwf e h
  | fmSet name k v =>
    simp only [runOp] at h ⊢
    rw [eraseVal_fst]
    rw [eraseVal_err] at h
    exact opFrontmatterSet_err_files name k v s e h
  | replaceText name o n all =>
    simp only [runOp] at h ⊢
    rw [eraseVal_fst]
    rw [eraseVal_err] at h
    exact opReplace_err_files name o n all s e h
  | insertText name text b a =>
    simp only [runOp] at h ⊢
    rw [eraseVal_fst]
    rw [eraseVal_err] at h
    exact opInsert_err_files name text b a s e h
  | readSection name sec =>
    simp only [runOp] at h ⊢
    rw [eraseVal_fst]
    rw [eraseVal_err] at h
    exact opReadSection_err_files name sec s e h
  | appendSection name sec text =>
    simp only [runOp] at h ⊢
    rw [eraseVal_fst]
    rw [eraseVal_err] at h
    exact opAppendSection_err_files name sec text s e h
  | updateSection name sec content =>
    simp only [runOp] at h ⊢
    rw [eraseVal_fst]
    rw [eraseVal_err] at h
    exact opUpdateSection_err_files name sec content s e h
  | deleteSection name sec =>
    simp only [runOp] at h ⊢
    rw [eraseVal_fst]
    rw [eraseVal_err] at h
    exact opDeleteSection_err_files name sec s e h
  | getHeadings name =>
    simp only [runOp] at h ⊢
    rw [eraseVal_fst]
    rw [eraseVal_err] at h
    exact opGetHeadings_err_files name s e h
  | links name d =>
    simp only [runOp] at h ⊢
    rw [eraseVal_fst]
    rw [eraseVal_err] at h
    exact opLinks_err_files name d s e h

/-- C6 (corrected): `batch_rename` violates the error-atomicity claim —
on the vault {A, C}, renaming [(A,B), (C,Д)] fails the second pair's
name validation, yet A has already been renamed to B on disk when the
`InvalidName` error is returned. -/
theorem C6_cex :
    (opBatchRename false
      (("A".data, "B".data) :: ("C".data, 'Д' :: []) :: []) (mkVault demoTwo)).2 =
      .error .invalidName ∧
    (opBatchRename false
      (("A".data, "B".data) :: ("C".data, 'Д' :: []) :: []) (mkVault demoTwo)).1.files =
      ⟨"B".data, false, "x".data⟩ :: ⟨"C".data, false, "y".data⟩ :: [] ∧
    (opBatchRename false
      (("A".data, "B".data) :: ("C".data, 'Д' :: []) :: []) (mkVault demoTwo)).1.files ≠
      demoTwo := by
  refine ⟨by decide, by decide, by decide⟩

theorem C6_witness :
    wfState (mkVault []) ∧
    (runOp (OpCall.create ('Д' :: []) [] none) (mkVault [])).2 = .error .invalidName ∧
    (runOp (OpCall.create ('Д' :: []) [] none) (mkVault [])).1.files = [] :=
  ⟨Or.inl rfl, by decide,
    C6_error_frame (OpCall.create ('Д' :: []) [] none) (mkVault []) Err.invalidName
      (Or.inl rfl) (by decide)⟩

end Obsidian
